import Mathlib

/-!
Shallow embedding of the goxpp XML pull parser (src/xpp.go) together with
theorems checking the natural-language specification against it.

The token source (Go's encoding/xml Decoder) is modelled as a finite list of
primitive tokens followed by a terminal signal: either end-of-input or a
lexical error (Go's Decoder persists its error, so the terminal repeats).
Go maps are modelled as association lists with in-place update; Go ints as
Lean Int (depth changes by at most one per token, so overflow is immaterial).
-/

namespace Goxpp

/-- Event vocabulary of the parser, from the XMLEventType constants. -/
inductive XMLEventType
  | StartDocument
  | EndDocument
  | StartTag
  | EndTag
  | Text
  | Comment
  | ProcessingInstruction
  | Directive
  | IgnorableWhitespace
deriving DecidableEq, Repr

/-- Qualified XML name, from encoding/xml's Name (Space, Local). -/
structure XmlName where
  space : String
  localName : String
deriving DecidableEq, Repr

/-- Attribute, from encoding/xml's Attr (Name, Value). -/
structure XmlAttr where
  name : XmlName
  value : String
deriving DecidableEq, Repr

/-- Primitive lexical tokens produced by the token source, from
encoding/xml's Token kinds. -/
inductive XmlToken
  | startElement (name : XmlName) (attrs : List XmlAttr)
  | endElement (name : XmlName)
  | charData (s : String)
  | comment (s : String)
  | procInst (target inst : String)
  | directive (s : String)
deriving DecidableEq, Repr

/-- Terminal signal of the token source: end of input, or a lexical error
(Go's xml.Decoder keeps returning the same error once it occurred). -/
inductive SourceEnd
  | eof
  | err (e : String)
deriving DecidableEq, Repr

/-- Update an association list at a key, replacing an existing binding in
place or appending a fresh one; models assignment into a Go map. -/
def mapSet : List (String × String) → String → String → List (String × String)
  | [], k, v => [(k, v)]
  | (k', v') :: rest, k, v =>
      if k' = k then (k, v) :: rest else (k', v') :: mapSet rest k v

/-- Lookup in the association-list model of a Go map. -/
def mapGet : List (String × String) → String → Option String
  | [], _ => none
  | (k', v') :: rest, k => if k' = k then some v' else mapGet rest k

/-- Model of Go's strings.TrimSpace: drop leading and trailing whitespace. -/
def goTrim (s : String) : String :=
  ⟨((s.data.dropWhile Char.isWhitespace).reverse.dropWhile Char.isWhitespace).reverse⟩

/-- Model of Go's strings.ToLower: lower-case every character. -/
def goToLower (s : String) : String :=
  ⟨s.data.map Char.toLower⟩

/-- Parser state, from struct XMLPullParser.  The decoder is embedded as the
`remaining` token list plus the `terminal` signal. -/
structure XMLPullParser where
  remaining : List XmlToken
  terminal : SourceEnd
  spaces : List (String × String)
  depth : Int
  event : XMLEventType
  attrs : List XmlAttr
  name : String
  space : String
  text : String
  token : Option XmlToken
  peekToken : Option XmlToken
  peekEvent : XMLEventType
  peekErr : Option String
deriving DecidableEq, Repr

/-- Constructor, from NewXMLPullParser: cursor on StartDocument, depth 0,
empty namespace table; the peek fields hold Go zero values. -/
def NewXMLPullParser (ts : List XmlToken) (term : SourceEnd) : XMLPullParser :=
  { remaining := ts, terminal := term, spaces := [], depth := 0,
    event := .StartDocument, attrs := [], name := "", space := "", text := "",
    token := none, peekToken := none, peekEvent := .StartDocument,
    peekErr := none }

/-- Event kind of a primitive token, from eventType (src/xpp.go:312-328):
character data is always classified as Text. -/
def eventType : XmlToken → XMLEventType
  | .startElement _ _ => .StartTag
  | .endElement _ => .EndTag
  | .charData _ => .Text
  | .comment _ => .Comment
  | .procInst _ _ => .ProcessingInstruction
  | .directive _ => .Directive

/-- Display name of an event, from eventName. -/
def eventName : XMLEventType → String
  | .StartTag => "StartTag"
  | .EndTag => "EndTag"
  | .StartDocument => "StartDocument"
  | .EndDocument => "EndDocument"
  | .ProcessingInstruction => "ProcessingInstruction"
  | .Directive => "Directive"
  | .Comment => "Comment"
  | .Text => "Text"
  | .IgnorableWhitespace => "IgnorableWhitespace"

/-- Namespace recording, from trackNamespaces (src/xpp.go:330-341): an
attribute in the xmlns namespace maps the trimmed value to the lower-cased,
trimmed local name; otherwise an attribute whose local name is xmlns maps
the trimmed value to the empty prefix. -/
def trackNamespaces (spaces : List (String × String)) (attrs : List XmlAttr) :
    List (String × String) :=
  attrs.foldl
    (fun m a =>
      if a.name.space = "xmlns" then
        mapSet m (goTrim a.value) (goTrim (goToLower a.name.localName))
      else if a.name.localName = "xmlns" then
        mapSet m (goTrim a.value) ""
      else m)
    spaces

/-- Start-tag processing, from processStartToken (src/xpp.go:248-254). -/
def processStartToken (p : XMLPullParser) (n : XmlName) (attrs : List XmlAttr) :
    XMLPullParser :=
  { p with depth := p.depth + 1, attrs := attrs, name := n.localName,
           space := n.space, spaces := trackNamespaces p.spaces attrs }

/-- End-tag processing, from processEndToken (src/xpp.go:256-259): only the
depth and the name change; the namespace table is not touched. -/
def processEndToken (p : XMLPullParser) (n : XmlName) : XMLPullParser :=
  { p with depth := p.depth - 1, name := n.localName }

/-- Token dispatch, from processToken; a nil token matches no case. -/
def processToken (p : XMLPullParser) : Option XmlToken → XMLPullParser
  | none => p
  | some (.startElement n attrs) => processStartToken p n attrs
  | some (.endElement n) => processEndToken p n
  | some (.charData s) => { p with text := s }
  | some (.comment s) => { p with text := s }
  | some (.procInst t i) => { p with text := t ++ " " ++ i }
  | some (.directive s) => { p with text := s }

/-- Per-token field reset, from resetTokenState. -/
def resetTokenState (p : XMLPullParser) : XMLPullParser :=
  { p with attrs := [], name := "", space := "", text := "" }

/-- Whitespace test on the current text, from isWhitespace. -/
def isWhitespace (p : XMLPullParser) : Bool :=
  goTrim p.text = ""

/-- Lookahead refill, from peekNextToken (src/xpp.go:147-164): pull one
token from the source; end-of-input becomes an EndDocument peek, any other
terminal signal is cached in peekErr. -/
def peekNextToken (p : XMLPullParser) : XMLPullParser :=
  match p.remaining with
  | t :: rest =>
      { p with remaining := rest, peekToken := some t,
               peekEvent := eventType t }
  | [] =>
      match p.terminal with
      | .eof => { p with peekToken := none, peekEvent := .EndDocument }
      | .err e => { p with peekErr := some e }

/-- Delivery step inside NextToken: promote the peeked token to current,
process it, and refill the lookahead. -/
def deliver (p : XMLPullParser) : XMLEventType × Option String × XMLPullParser :=
  let p1 := { p with event := p.peekEvent, token := p.peekToken }
  let p2 := processToken p1 p1.token
  let p3 := peekNextToken p2
  (p3.event, none, p3)

/-- One-token advance, from NextToken (src/xpp.go:119-145): reset per-token
fields, return a cached peek error if any (the Go named return value makes
the accompanying event the zero value StartDocument), prime the lookahead on
the first call, return EndDocument forever once reached, otherwise deliver
the peeked token and refill the lookahead. -/
def NextToken (p : XMLPullParser) : XMLEventType × Option String × XMLPullParser :=
  let p0 := resetTokenState p
  match p0.peekErr with
  | some e => (.StartDocument, some e, p0)
  | none =>
      if p0.event = .StartDocument then deliver (peekNextToken p0)
      else if p0.event = .EndDocument then (.EndDocument, none, p0)
      else deliver p0

/-- Fuel-indexed loop body of Next (src/xpp.go:76-117): return on tags and
EndDocument, reset the text accumulator and continue on comment, directive
and processing instruction, accumulate on Text, and return the accumulated
text when it is nonempty and the lookahead is a structural boundary. -/
def nextLoop : Nat → String → XMLPullParser →
    XMLEventType × Option String × XMLPullParser
  | 0, _, p => (p.event, none, p)
  | fuel + 1, text, p =>
      match NextToken p with
      | (event, some e, p1) => (event, some e, p1)
      | (event, none, p1) =>
          if event = .StartTag ∨ event = .EndTag ∨ event = .EndDocument then
            (event, none, p1)
          else if event = .Comment ∨ event = .Directive ∨
              event = .ProcessingInstruction then
            nextLoop fuel "" p1
          else
            let text1 := if event = .Text then text ++ p1.text else text
            if text1 ≠ "" ∧ (p1.peekEvent = .StartTag ∨ p1.peekEvent = .EndTag ∨
                p1.peekEvent = .EndDocument) then
              (.Text, none, { p1 with text := text1 })
            else
              nextLoop fuel text1 p1

/-- Coalescing advance, from Next; the fuel bound covers the whole source
plus the drain to EndDocument, so the loop never runs out on any input. -/
def Next (p : XMLPullParser) : XMLEventType × Option String × XMLPullParser :=
  nextLoop (p.remaining.length + 3) "" p

/-- Tag advance, from NextTag (src/xpp.go:56-74): one Next, an optional
second Next over a single whitespace-only Text, then the event must be
StartTag or EndTag (error paths return the Go zero-value event). -/
def NextTag (p : XMLPullParser) : XMLEventType × Option String × XMLPullParser :=
  match Next p with
  | (_, some e, p1) => (.StartDocument, some e, p1)
  | (t, none, p1) =>
      match (if t = .Text ∧ isWhitespace p1 then Next p1 else (t, none, p1)) with
      | (_, some e, p2) => (.StartDocument, some e, p2)
      | (t2, none, p2) =>
          if t2 ≠ .StartTag ∧ t2 ≠ .EndTag then
            (.StartDocument,
             some ("Expected StartTag or EndTag but got " ++ eventName t2), p2)
          else (t2, none, p2)

/-- Text extraction, from NextText (src/xpp.go:166-193). -/
def NextText (p : XMLPullParser) : String × Option String × XMLPullParser :=
  if p.event ≠ .StartTag then
    ("", some "Parser must be on StartTag to get NextText()", p)
  else
    match Next p with
    | (_, some e, p1) => ("", some e, p1)
    | (t, none, p1) =>
        if t = .Text then
          match Next p1 with
          | (_, some e, p2) => ("", some e, p2)
          | (nt, none, p2) =>
              if nt ≠ .EndTag then
                ("", some "Event Text must be immediately followed by EndTag", p2)
              else (p1.text, none, p2)
        else if t = .EndTag then ("", none, p1)
        else ("", some "Parser must be on StartTag or Text to read text", p1)

/-- Fuel-indexed subtree skip, from Skip (src/xpp.go:195-209): loop on
NextToken, recurse on StartTag, return on EndTag, propagate errors; fuel
only rules out the divergence Go would exhibit on truncated input. -/
def skipFuel : Nat → XMLPullParser → Option (Option String × XMLPullParser)
  | 0, _ => none
  | fuel + 1, p =>
      match NextToken p with
      | (_, some e, p1) => some (some e, p1)
      | (tok, none, p1) =>
          if tok = .StartTag then
            match skipFuel fuel p1 with
            | none => none
            | some (some e, p2) => some (some e, p2)
            | some (none, p2) => skipFuel fuel p2
          else if tok = .EndTag then some (none, p1)
          else skipFuel fuel p1

/-- Subtree skip wrapper with fuel ample for any well-formed subtree. -/
def Skip (p : XMLPullParser) : Option (Option String × XMLPullParser) :=
  skipFuel (p.remaining.length + 2) p

/-- Attribute lookup, from Attribute: first match on the local name. -/
def Attribute (p : XMLPullParser) (n : String) : String :=
  match p.attrs.find? (fun a => a.name.localName = n) with
  | some a => a.value
  | none => ""

/-- Modelled from the spec: absolute base URI with scheme, authority and
path components; the base URI stack code (BaseStack, urlStack,
XmlBaseResolveUrl) is absent from src/, only its tests remain. -/
structure XmlUrl where
  scheme : String
  host : String
  path : String
deriving DecidableEq, Repr

/-- Modelled from the spec: textual form of a base URI. -/
def urlToString (u : XmlUrl) : String :=
  u.scheme ++ "://" ++ u.host ++ u.path

/-- Modelled from the spec: split a reference at the first scheme separator
when present. -/
def splitSchemeAux : List Char → Option (List Char × List Char)
  | [] => none
  | c :: rest =>
      if c = ':' ∧ rest.take 2 = ['/', '/'] then some ([], rest.drop 2)
      else
        match splitSchemeAux rest with
        | some (a, b) => some (c :: a, b)
        | none => none

/-- Modelled from the spec: a reference carrying a scheme is absolute. -/
def hasScheme (s : String) : Bool :=
  (splitSchemeAux s.data).isSome

/-- Modelled from the spec: parse an absolute reference into scheme,
authority and path. -/
def parseAbs (s : String) : XmlUrl :=
  match splitSchemeAux s.data with
  | some (sch, rest) =>
      ⟨⟨sch⟩, ⟨rest.takeWhile (fun c => c ≠ '/')⟩,
        ⟨rest.dropWhile (fun c => c ≠ '/')⟩⟩
  | none => ⟨"", "", s⟩

/-- Modelled from the spec: does the reference start with a slash. -/
def startsSlash (s : String) : Bool :=
  match s.data with
  | '/' :: _ => true
  | _ => false

/-- Modelled from the spec: does the path end with a slash. -/
def endsSlash (s : String) : Bool :=
  s.data.getLast? = some '/'

/-- Modelled from the spec: join a relative reference against the base's
path. -/
def joinRel (basePath r : String) : String :=
  if endsSlash basePath then basePath ++ r else basePath ++ "/" ++ r

/-- Modelled from the spec: relative-reference resolution; an absolute
reference with a scheme replaces the base entirely, an absolute-path
reference replaces the path keeping scheme and authority, a relative
reference is joined against the base's path. -/
def resolveRef (base : XmlUrl) (ref : String) : XmlUrl :=
  if hasScheme ref then parseAbs ref
  else if startsSlash ref then { base with path := ref }
  else { base with path := joinRel base.path ref }

/-- Modelled from the spec: the xml:base attribute of a start tag, if
present. -/
def findXmlBase (attrs : List XmlAttr) : Option String :=
  match attrs.find? (fun a => a.name.space = "xml" ∧ a.name.localName = "base") with
  | some a => some a.value
  | none => none

/-- Modelled from the spec: on a processed start tag push the resolved
xml:base value when present, else push an unchanged copy of the top. -/
def baseStart (st : List XmlUrl) (attrs : List XmlAttr) : List XmlUrl :=
  let top := st.headD ⟨"", "", ""⟩
  match findXmlBase attrs with
  | some v => resolveRef top v :: st
  | none => top :: st

/-- Modelled from the spec: on a processed end tag pop one entry. -/
def baseEnd (st : List XmlUrl) : List XmlUrl :=
  st.tail

/-- Modelled from the spec: the base tracker observes start and end tags
and ignores every other token. -/
def baseStep (st : List XmlUrl) : XmlToken → List XmlUrl
  | .startElement _ attrs => baseStart st attrs
  | .endElement _ => baseEnd st
  | _ => st

/-- Modelled from the spec: base URI stack after processing a token list. -/
def baseStackAfter (ts : List XmlToken) : List XmlUrl :=
  ts.foldl baseStep []

/-- Modelled from the spec: ResolveUrl resolves an ad hoc reference against
the current top and returns the stack unchanged. -/
def ResolveUrl (st : List XmlUrl) (ref : String) : XmlUrl × List XmlUrl :=
  (resolveRef (st.headD ⟨"", "", ""⟩) ref, st)

/-- Structural tokens are the two tag kinds. -/
def isTag : XmlToken → Bool
  | .startElement _ _ => true
  | .endElement _ => true
  | _ => false

/-- Depth contribution of one token. -/
def tokenBal : XmlToken → Int
  | .startElement _ _ => 1
  | .endElement _ => -1
  | _ => 0

/-- Running depth contribution of a token list. -/
def balance (ts : List XmlToken) : Int :=
  (ts.map tokenBal).sum

/-- Well-formed token forests: a sequence of complete items, where an item
is a non-tag token or a start tag, a well-formed inner forest and the
matching end tag. -/
inductive Items : List XmlToken → Prop
  | nil : Items []
  | flat (t : XmlToken) (ts : List XmlToken) :
      isTag t = false → Items ts → Items (t :: ts)
  | node (n : XmlName) (attrs : List XmlAttr) (inner rest : List XmlToken)
      (n2 : XmlName) : Items inner → Items rest →
      Items (.startElement n attrs :: inner ++ .endElement n2 :: rest)

/-- Tokens still to be delivered: the lookahead slot followed by the
undecoded remainder. -/
def pendingAll (p : XMLPullParser) : List XmlToken :=
  (match p.peekToken with
   | some t => [t]
   | none => []) ++ p.remaining

/-- The lookahead slot is consistent: either it holds a token whose kind
matches peekEvent, or it is the end-of-stream EndDocument peek. -/
def Sync (p : XMLPullParser) : Prop :=
  (∃ t, p.peekToken = some t ∧ p.peekEvent = eventType t) ∨
    (p.peekToken = none ∧ p.peekEvent = .EndDocument ∧ p.remaining = [])

/-- Mid-stream states: lookahead consistent, no cached error, cursor past
StartDocument and not yet on EndDocument. -/
def Streaming (p : XMLPullParser) : Prop :=
  Sync p ∧ p.peekErr = none ∧ p.event ≠ .StartDocument ∧ p.event ≠ .EndDocument

/-- State reached after NextToken promotes and processes a peeked token. -/
def deliverAt (q : XMLPullParser) (t : XmlToken) : XMLPullParser :=
  peekNextToken (processToken { q with event := eventType t, token := some t } (some t))

/-- Iterated NextToken state advance. -/
def ntN : Nat → XMLPullParser → XMLPullParser
  | 0, p => p
  | k + 1, p => ntN k (NextToken p).2.2

/-- Concatenation of a list of strings in encounter order. -/
def strConcat : List String → String
  | [] => ""
  | s :: l => s ++ strConcat l

/-- Token stream of character data a, a comment, character data b. -/
def tsTexts : List XmlToken := [.charData "a", .comment "c", .charData "b"]

/-- Token stream of the document with a self-closing namespaced element,
as produced by the Go decoder for the input in the claim. -/
def tsSelfClosing : List XmlToken :=
  [.startElement ⟨"z", "y"⟩ [⟨⟨"xmlns", "a"⟩, "z"⟩],
   .endElement ⟨"z", "y"⟩,
   .startElement ⟨"", "x"⟩ [],
   .charData "foo",
   .endElement ⟨"", "x"⟩]

/-- Token stream of the sibling-depth document. -/
def tsSiblings : List XmlToken :=
  [.startElement ⟨"", "root"⟩ [], .startElement ⟨"", "d2"⟩ [],
   .charData "foo", .endElement ⟨"", "d2"⟩,
   .startElement ⟨"", "d2"⟩ [], .charData "bar", .endElement ⟨"", "d2"⟩,
   .endElement ⟨"", "root"⟩]

/-- Token streams for the NextText examples. -/
def tsSimpleText : List XmlToken :=
  [.startElement ⟨"", "root"⟩ [], .charData "simple text", .endElement ⟨"", "root"⟩]

def tsEmptyElement : List XmlToken :=
  [.startElement ⟨"", "root"⟩ [], .endElement ⟨"", "root"⟩]

def tsMixedContent : List XmlToken :=
  [.startElement ⟨"", "root"⟩ [], .charData "text",
   .startElement ⟨"", "child"⟩ [], .endElement ⟨"", "child"⟩,
   .charData "text2", .endElement ⟨"", "root"⟩]

def tsWhitespaceText : List XmlToken :=
  [.startElement ⟨"", "root"⟩ [], .charData "  \t\n  ", .endElement ⟨"", "root"⟩]

/-- Token stream of the Skip example document. -/
def tsSkipKeep : List XmlToken :=
  [.startElement ⟨"", "skip"⟩ [], .startElement ⟨"", "child1"⟩ [],
   .endElement ⟨"", "child1"⟩, .startElement ⟨"", "child2"⟩ [],
   .endElement ⟨"", "child2"⟩, .endElement ⟨"", "skip"⟩,
   .startElement ⟨"", "keep"⟩ [], .endElement ⟨"", "keep"⟩]

/-- Token stream of the xml:base example document. -/
def tsBase : List XmlToken :=
  [.startElement ⟨"", "root"⟩ [⟨⟨"xml", "base"⟩, "https://example.org/path/"⟩],
   .startElement ⟨"", "d2"⟩ [⟨⟨"xml", "base"⟩, "relative"⟩],
   .charData "foo", .endElement ⟨"", "d2"⟩,
   .startElement ⟨"", "d2"⟩ [⟨⟨"xml", "base"⟩, "/absolute"⟩],
   .charData "bar", .endElement ⟨"", "d2"⟩,
   .startElement ⟨"", "d2"⟩ [], .charData "baz", .endElement ⟨"", "d2"⟩,
   .endElement ⟨"", "root"⟩]

/-- A concrete mid-stream parser state whose lookahead holds character data
followed by a single end tag. -/
def wpRun : XMLPullParser :=
  { remaining := [.endElement ⟨"", "r"⟩], terminal := .eof, spaces := [],
    depth := 1, event := .StartTag, attrs := [], name := "r", space := "",
    text := "", token := none, peekToken := some (.charData "hi"),
    peekEvent := .Text, peekErr := none }

/-- The trimmed namespace URI an attribute declares, if it is a namespace
declaration at all (either kind). -/
def nsKey (a : XmlAttr) : Option String :=
  if a.name.space = "xmlns" ∨ a.name.localName = "xmlns" then some (goTrim a.value)
  else none

/-- Traversal states of the sibling-depth document. -/
def sib1 : XMLPullParser := (NextTag (NewXMLPullParser tsSiblings .eof)).2.2

def sib2 : XMLPullParser := (NextTag sib1).2.2

def sib3 : XMLPullParser := (NextText sib2).2.2

def sib4 : XMLPullParser := (NextTag sib3).2.2

/-- States of the NextText example documents, positioned on the root. -/
def ntxSimple : XMLPullParser := (NextTag (NewXMLPullParser tsSimpleText .eof)).2.2

def ntxEmpty : XMLPullParser := (NextTag (NewXMLPullParser tsEmptyElement .eof)).2.2

def ntxMixed : XMLPullParser := (NextTag (NewXMLPullParser tsMixedContent .eof)).2.2

def ntxWs : XMLPullParser := (NextTag (NewXMLPullParser tsWhitespaceText .eof)).2.2

/-- Skip example states: cursor on the skip element, then after Skip. -/
def skipStart : XMLPullParser := (NextTag (NewXMLPullParser tsSkipKeep .eof)).2.2

def skipDone : XMLPullParser :=
  ((Skip skipStart).getD (none, NewXMLPullParser [] .eof)).2

/-- A concrete mid-stream state with a cached lexical error. -/
def wpErr : XMLPullParser :=
  { remaining := [], terminal := .err "boom", spaces := [], depth := 2,
    event := .StartTag, attrs := [], name := "r", space := "", text := "",
    token := none, peekToken := none, peekEvent := .Text,
    peekErr := some "boom" }

/-- A concrete mid-stream state about to deliver an end tag. -/
def wpEnd : XMLPullParser :=
  { remaining := [], terminal := .eof, spaces := [], depth := 3,
    event := .StartTag, attrs := [], name := "r", space := "", text := "",
    token := none, peekToken := some (.endElement ⟨"", "r"⟩),
    peekEvent := .EndTag, peekErr := none }


@[simp] theorem resetTokenState_event (p : XMLPullParser) :
    (resetTokenState p).event = p.event := rfl

@[simp] theorem resetTokenState_peekErr (p : XMLPullParser) :
    (resetTokenState p).peekErr = p.peekErr := rfl

@[simp] theorem resetTokenState_peekToken (p : XMLPullParser) :
    (resetTokenState p).peekToken = p.peekToken := rfl

@[simp] theorem resetTokenState_peekEvent (p : XMLPullParser) :
    (resetTokenState p).peekEvent = p.peekEvent := rfl

@[simp] theorem resetTokenState_remaining (p : XMLPullParser) :
    (resetTokenState p).remaining = p.remaining := rfl

@[simp] theorem resetTokenState_terminal (p : XMLPullParser) :
    (resetTokenState p).terminal = p.terminal := rfl

@[simp] theorem resetTokenState_depth (p : XMLPullParser) :
    (resetTokenState p).depth = p.depth := rfl

@[simp] theorem resetTokenState_spaces (p : XMLPullParser) :
    (resetTokenState p).spaces = p.spaces := rfl

@[simp] theorem pendingAll_reset (p : XMLPullParser) :
    pendingAll (resetTokenState p) = pendingAll p := rfl

theorem eventType_ne_startDocument (t : XmlToken) :
    eventType t ≠ .StartDocument := by
  cases t <;> simp [eventType]

theorem eventType_ne_endDocument (t : XmlToken) :
    eventType t ≠ .EndDocument := by
  cases t <;> simp [eventType]

theorem eventType_ne_ignorable (t : XmlToken) :
    eventType t ≠ .IgnorableWhitespace := by
  cases t <;> simp [eventType]

theorem isTag_false_bal (t : XmlToken) (h : isTag t = false) : tokenBal t = 0 := by
  cases t <;> simp_all [isTag, tokenBal]

theorem isTag_false_eventType (t : XmlToken) (h : isTag t = false) :
    eventType t ≠ .StartTag ∧ eventType t ≠ .EndTag := by
  cases t <;> simp_all [isTag, eventType]

@[simp] theorem processToken_none (p : XMLPullParser) : processToken p none = p := rfl

theorem processToken_depth (p : XMLPullParser) (t : XmlToken) :
    (processToken p (some t)).depth = p.depth + tokenBal t := by
  cases t <;> simp [processToken, processStartToken, processEndToken, tokenBal] <;> omega

theorem processToken_event (p : XMLPullParser) (o : Option XmlToken) :
    (processToken p o).event = p.event := by
  cases o with
  | none => rfl
  | some t => cases t <;> rfl

theorem processToken_remaining (p : XMLPullParser) (o : Option XmlToken) :
    (processToken p o).remaining = p.remaining := by
  cases o with
  | none => rfl
  | some t => cases t <;> rfl

theorem processToken_terminal (p : XMLPullParser) (o : Option XmlToken) :
    (processToken p o).terminal = p.terminal := by
  cases o with
  | none => rfl
  | some t => cases t <;> rfl

theorem processToken_peekErr (p : XMLPullParser) (o : Option XmlToken) :
    (processToken p o).peekErr = p.peekErr := by
  cases o with
  | none => rfl
  | some t => cases t <;> rfl

theorem peekNextToken_cons (p : XMLPullParser) (u : XmlToken) (rest : List XmlToken)
    (h : p.remaining = u :: rest) :
    peekNextToken p =
      { p with remaining := rest, peekToken := some u, peekEvent := eventType u } := by
  simp [peekNextToken, h]

theorem peekNextToken_nil_eof (p : XMLPullParser) (h : p.remaining = [])
    (ht : p.terminal = .eof) :
    peekNextToken p = { p with peekToken := none, peekEvent := .EndDocument } := by
  simp [peekNextToken, h, ht]

theorem peekNextToken_nil_err (p : XMLPullParser) (e : String) (h : p.remaining = [])
    (ht : p.terminal = .err e) :
    peekNextToken p = { p with peekErr := some e } := by
  simp [peekNextToken, h, ht]

theorem peekNextToken_event (p : XMLPullParser) :
    (peekNextToken p).event = p.event := by
  unfold peekNextToken
  cases h : p.remaining with
  | cons u rest => rfl
  | nil => cases ht : p.terminal <;> rfl

theorem peekNextToken_depth (p : XMLPullParser) :
    (peekNextToken p).depth = p.depth := by
  unfold peekNextToken
  cases h : p.remaining with
  | cons u rest => rfl
  | nil => cases ht : p.terminal <;> rfl

theorem peekNextToken_terminal (p : XMLPullParser) :
    (peekNextToken p).terminal = p.terminal := by
  unfold peekNextToken
  cases h : p.remaining with
  | cons u rest => rfl
  | nil => cases ht : p.terminal <;> rfl

theorem peekNextToken_text (p : XMLPullParser) :
    (peekNextToken p).text = p.text := by
  unfold peekNextToken
  cases h : p.remaining with
  | cons u rest => rfl
  | nil => cases ht : p.terminal <;> rfl

theorem peekNextToken_name (p : XMLPullParser) :
    (peekNextToken p).name = p.name := by
  unfold peekNextToken
  cases h : p.remaining with
  | cons u rest => rfl
  | nil => cases ht : p.terminal <;> rfl

theorem peekNextToken_spaces (p : XMLPullParser) :
    (peekNextToken p).spaces = p.spaces := by
  unfold peekNextToken
  cases h : p.remaining with
  | cons u rest => rfl
  | nil => cases ht : p.terminal <;> rfl

theorem pendingAll_some (p : XMLPullParser) (t : XmlToken) (h : p.peekToken = some t) :
    pendingAll p = t :: p.remaining := by
  simp [pendingAll, h]

theorem pendingAll_none (p : XMLPullParser) (h : p.peekToken = none) :
    pendingAll p = p.remaining := by
  simp [pendingAll, h]

theorem deliverAt_event (q : XMLPullParser) (t : XmlToken) :
    (deliverAt q t).event = eventType t := by
  unfold deliverAt
  rw [peekNextToken_event, processToken_event]

theorem deliverAt_depth (q : XMLPullParser) (t : XmlToken) :
    (deliverAt q t).depth = q.depth + tokenBal t := by
  unfold deliverAt
  rw [peekNextToken_depth, processToken_depth]

theorem deliverAt_terminal (q : XMLPullParser) (t : XmlToken) :
    (deliverAt q t).terminal = q.terminal := by
  unfold deliverAt
  rw [peekNextToken_terminal, processToken_terminal]

theorem deliverAt_peekErr_eof (q : XMLPullParser) (t : XmlToken)
    (he : q.peekErr = none) (ht : q.terminal = .eof) :
    (deliverAt q t).peekErr = none := by
  unfold deliverAt
  have hr := processToken_remaining { q with event := eventType t, token := some t } (some t)
  have hterm := processToken_terminal { q with event := eventType t, token := some t } (some t)
  have herr := processToken_peekErr { q with event := eventType t, token := some t } (some t)
  cases h : (processToken { q with event := eventType t, token := some t } (some t)).remaining with
  | cons u rest => rw [peekNextToken_cons _ u rest h]; simpa using herr.trans (by simp [he])
  | nil =>
      rw [peekNextToken_nil_eof _ h (by rw [hterm]; simpa using ht)]
      simpa using herr.trans (by simp [he])

theorem deliverAt_pending_eof (q : XMLPullParser) (t : XmlToken) (ht : q.terminal = .eof) :
    pendingAll (deliverAt q t) = q.remaining := by
  unfold deliverAt
  have hr := processToken_remaining { q with event := eventType t, token := some t } (some t)
  have hterm := processToken_terminal { q with event := eventType t, token := some t } (some t)
  cases h : (processToken { q with event := eventType t, token := some t } (some t)).remaining with
  | cons u rest =>
      rw [peekNextToken_cons _ u rest h]
      simp [pendingAll]
      exact h.symm.trans hr
  | nil =>
      rw [peekNextToken_nil_eof _ h (by rw [hterm]; simpa using ht)]
      simp [pendingAll]
      exact hr

theorem deliverAt_sync_eof (q : XMLPullParser) (t : XmlToken) (ht : q.terminal = .eof) :
    Sync (deliverAt q t) := by
  unfold deliverAt
  have hterm := processToken_terminal { q with event := eventType t, token := some t } (some t)
  cases h : (processToken { q with event := eventType t, token := some t } (some t)).remaining with
  | cons u rest =>
      rw [peekNextToken_cons _ u rest h]
      exact Or.inl ⟨u, rfl, rfl⟩
  | nil =>
      rw [peekNextToken_nil_eof _ h (by rw [hterm]; simpa using ht)]
      exact Or.inr ⟨rfl, rfl, h⟩

theorem deliverAt_streaming (q : XMLPullParser) (t : XmlToken)
    (he : q.peekErr = none) (ht : q.terminal = .eof) :
    Streaming (deliverAt q t) := by
  refine ⟨deliverAt_sync_eof q t ht, deliverAt_peekErr_eof q t he ht, ?_, ?_⟩
  · rw [deliverAt_event]; exact eventType_ne_startDocument t
  · rw [deliverAt_event]; exact eventType_ne_endDocument t

theorem deliverAt_text_charData (q : XMLPullParser) (s : String) :
    (deliverAt q (.charData s)).text = s := by
  unfold deliverAt
  rw [peekNextToken_text]
  rfl

theorem deliverAt_name_endElement (q : XMLPullParser) (n : XmlName) :
    (deliverAt q (.endElement n)).name = n.localName := by
  unfold deliverAt
  rw [peekNextToken_name]
  rfl

theorem nextToken_err (p : XMLPullParser) (e : String) (h : p.peekErr = some e) :
    NextToken p = (.StartDocument, some e, resetTokenState p) := by
  simp [NextToken, h]

theorem nextToken_endDocument (p : XMLPullParser) (he : p.peekErr = none)
    (h : p.event = .EndDocument) :
    NextToken p = (.EndDocument, none, resetTokenState p) := by
  simp [NextToken, he, h]

theorem nextToken_startDocument (p : XMLPullParser) (he : p.peekErr = none)
    (h : p.event = .StartDocument) :
    NextToken p = deliver (peekNextToken (resetTokenState p)) := by
  simp [NextToken, he, h]

theorem deliver_eq_some (q : XMLPullParser) (t : XmlToken)
    (hp : q.peekToken = some t) (hpe : q.peekEvent = eventType t) :
    deliver q = (eventType t, none, deliverAt q t) := by
  unfold deliver deliverAt
  rw [hp, hpe]
  refine Prod.ext ?_ rfl
  simp only
  rw [peekNextToken_event, processToken_event]

theorem deliver_eq_none (q : XMLPullParser)
    (hp : q.peekToken = none) (hpe : q.peekEvent = .EndDocument) :
    deliver q =
      (.EndDocument, none, peekNextToken { q with event := .EndDocument, token := none }) := by
  unfold deliver
  rw [hp, hpe]
  refine Prod.ext ?_ rfl
  simp only [processToken_none]
  rw [peekNextToken_event]

theorem nextToken_deliver (p : XMLPullParser) (t : XmlToken)
    (he : p.peekErr = none) (h1 : p.event ≠ .StartDocument) (h2 : p.event ≠ .EndDocument)
    (hp : p.peekToken = some t) (hpe : p.peekEvent = eventType t) :
    NextToken p = (eventType t, none, deliverAt (resetTokenState p) t) := by
  have : NextToken p = deliver (resetTokenState p) := by
    simp [NextToken, he, h1, h2]
  rw [this]
  exact deliver_eq_some _ t (by simpa using hp) (by simpa using hpe)

theorem sync_peek_some (p : XMLPullParser) (t : XmlToken) (hs : Sync p)
    (hp : p.peekToken = some t) : p.peekEvent = eventType t := by
  rcases hs with ⟨u, hu, he⟩ | ⟨hn, _, _⟩
  · rw [hp] at hu; cases hu; exact he
  · rw [hp] at hn; cases hn

/-- Packaged mid-stream step: with a consistent lookahead holding a token,
NextToken delivers exactly that token. -/
theorem nextToken_step (p : XMLPullParser) (t : XmlToken)
    (hs : Streaming p) (ht : p.terminal = .eof) (hp : p.peekToken = some t) :
    NextToken p = (eventType t, none, deliverAt (resetTokenState p) t) ∧
      Streaming (deliverAt (resetTokenState p) t) ∧
      pendingAll (deliverAt (resetTokenState p) t) = p.remaining ∧
      (deliverAt (resetTokenState p) t).depth = p.depth + tokenBal t ∧
      (deliverAt (resetTokenState p) t).terminal = .eof ∧
      (deliverAt (resetTokenState p) t).event = eventType t := by
  obtain ⟨hsync, herr, h1, h2⟩ := hs
  refine ⟨nextToken_deliver p t herr h1 h2 hp (sync_peek_some p t hsync hp), ?_, ?_, ?_, ?_, ?_⟩
  · exact deliverAt_streaming _ t (by simpa using herr) (by simpa using ht)
  · rw [deliverAt_pending_eof _ t (by simpa using ht)]; rfl
  · rw [deliverAt_depth]; rfl
  · rw [deliverAt_terminal]; simpa using ht
  · exact deliverAt_event _ t

@[simp] theorem balance_nil : balance [] = 0 := rfl

theorem balance_cons (t : XmlToken) (ts : List XmlToken) :
    balance (t :: ts) = tokenBal t + balance ts := by
  simp [balance]

theorem balance_append (l1 l2 : List XmlToken) :
    balance (l1 ++ l2) = balance l1 + balance l2 := by
  simp [balance]

/-- A complete well-formed forest has zero net depth contribution. -/
theorem items_balance {ts : List XmlToken} (h : Items ts) : balance ts = 0 := by
  induction h with
  | nil => rfl
  | flat t ts hflat hts ih =>
      have hbal := isTag_false_bal t hflat
      rw [balance_cons]
      omega
  | node n attrs inner rest n2 hi hr ihi ihr =>
      rw [balance_append, balance_cons, balance_cons, ihi, ihr]
      simp [tokenBal]

/-- Every prefix of a well-formed forest has nonnegative balance. -/
theorem items_prefix_balance {ts : List XmlToken} (h : Items ts) :
    ∀ d x, d ++ x = ts → 0 ≤ balance d := by
  induction h with
  | nil =>
      intro d x hdx
      rcases List.append_eq_nil.mp hdx with ⟨hd, _⟩
      subst hd; simp
  | flat t ts hflat hts ih =>
      intro d x hdx
      cases d with
      | nil => simp
      | cons t' d' =>
          rw [List.cons_append] at hdx
          injection hdx with ht' hd'
          subst ht'
          have hbal := isTag_false_bal t' hflat
          have hrec := ih d' x hd'
          rw [balance_cons]
          omega
  | node n attrs inner rest n2 hi hr ihi ihr =>
      intro d x hdx
      rw [List.cons_append] at hdx
      cases d with
      | nil => simp
      | cons t' d' =>
          rw [List.cons_append] at hdx
          injection hdx with ht' hd'
          subst ht'
          rw [balance_cons]
          have hbal : (0 : Int) ≤ balance d' + 1 := by
            rcases List.append_eq_append_iff.mp hd' with ⟨a', ha1, _⟩ | ⟨c', hc1, hc2⟩
            · have := ihi d' a' ha1.symm
              omega
            · cases c' with
              | nil =>
                  rw [List.append_nil] at hc1
                  subst hc1
                  rw [items_balance hi]; omega
              | cons e' c'' =>
                  rw [List.cons_append] at hc2
                  injection hc2 with he' hc''
                  subst hc1
                  subst he'
                  have hrec := ihr c'' x hc''.symm
                  rw [balance_append, items_balance hi, balance_cons]
                  simp only [tokenBal]
                  omega
          simp only [tokenBal]
          omega

/-- One advancing step of the cursor: a NextToken advance followed by an
arbitrary rewrite of the text field (Next writes the coalesced text back;
NextToken itself never reads the field, clearing it on entry).  All
advancing operations are compositions of such steps, so reachability under
this relation covers every call sequence of NextToken, Next, NextTag,
NextText and Skip. -/
def StepTo (p q : XMLPullParser) : Prop :=
  ∃ t : String, q = { (NextToken p).2.2 with text := t }

/-- Reachability by any number of advancing steps. -/
def Reaches (p q : XMLPullParser) : Prop :=
  Relation.ReflTransGen StepTo p q

/-- Depth bookkeeping invariant: the depth equals the balance of the
already-delivered prefix of the source. -/
def Inv (ts : List XmlToken) (p : XMLPullParser) : Prop :=
  p.terminal = .eof ∧ p.peekErr = none ∧
    (p.event = .StartDocument → p.peekToken = none) ∧
    (p.event ≠ .StartDocument → p.event ≠ .EndDocument → Sync p) ∧
    ∃ d, d ++ pendingAll p = ts ∧ p.depth = balance d ∧
      (p.event = .StartDocument → d = [])

theorem sync_reset (p : XMLPullParser) : Sync (resetTokenState p) ↔ Sync p := by
  simp [Sync]

theorem nextToken_stream_eq (p : XMLPullParser) (he : p.peekErr = none)
    (h1 : p.event ≠ .StartDocument) (h2 : p.event ≠ .EndDocument) :
    NextToken p = deliver (resetTokenState p) := by
  simp [NextToken, he, h1, h2]

theorem inv_init (ts : List XmlToken) : Inv ts (NewXMLPullParser ts .eof) := by
  refine ⟨rfl, rfl, fun _ => rfl, fun h _ => absurd rfl h, [], ?_, rfl, fun _ => rfl⟩
  simp [pendingAll, NewXMLPullParser]

theorem inv_step (ts : List XmlToken) (p : XMLPullParser) (h : Inv ts p) :
    Inv ts (NextToken p).2.2 := by
  obtain ⟨ht, he, hsd, hsync, d, hd, hdepth, hd0⟩ := h
  by_cases h1 : p.event = .StartDocument
  · have hpt := hsd h1
    have hts : pendingAll p = p.remaining := pendingAll_none p hpt
    have hd' : d = [] := hd0 h1
    subst hd'
    have hdts : p.remaining = ts := by rw [← hd, hts]; simp
    rw [nextToken_startDocument p he h1]
    cases hrem : p.remaining with
    | nil =>
        rw [peekNextToken_nil_eof (resetTokenState p) (by simpa using hrem)
          (by simpa using ht)]
        rw [deliver_eq_none _ rfl rfl]
        simp only
        rw [peekNextToken_nil_eof _ (by simpa using hrem) (by simpa using ht)]
        refine ⟨by simpa using ht, by simpa using he, by simp, by simp, [], ?_, ?_, by simp⟩
        · simp [pendingAll]
          exact hdts
        · simpa using hdepth
    | cons u rest =>
        rw [peekNextToken_cons (resetTokenState p) u rest (by simpa using hrem)]
        rw [deliver_eq_some _ u rfl rfl]
        simp only
        refine ⟨by rw [deliverAt_terminal]; simpa using ht,
          deliverAt_peekErr_eof _ u (by simpa using he) (by simpa using ht), ?_, ?_,
          [u], ?_, ?_, ?_⟩
        · intro hev
          rw [deliverAt_event] at hev
          exact absurd hev (eventType_ne_startDocument u)
        · intro _ _
          exact deliverAt_sync_eof _ u (by simpa using ht)
        · rw [deliverAt_pending_eof _ u (by simpa using ht)]
          simp only
          rw [hrem] at hdts
          simpa using hdts
        · rw [deliverAt_depth]
          simp only
          rw [balance_cons]
          have : p.depth = 0 := by simpa using hdepth
          simp [this]
        · intro hev
          rw [deliverAt_event] at hev
          exact absurd hev (eventType_ne_startDocument u)
  · by_cases h2 : p.event = .EndDocument
    · rw [nextToken_endDocument p he h2]
      refine ⟨by simpa using ht, by simpa using he, ?_, ?_, d, ?_, by simpa using hdepth, ?_⟩
      · intro hev
        rw [resetTokenState_event] at hev
        exact absurd hev h1
      · intro _ hev2
        rw [resetTokenState_event] at hev2
        exact absurd h2 hev2
      · rw [pendingAll_reset]; exact hd
      · intro hev
        rw [resetTokenState_event] at hev
        exact absurd hev h1
    · have hsyncp : Sync p := hsync h1 h2
      rcases hsyncp with ⟨t, hp, hpe⟩ | ⟨hn, hpe, hrem⟩
      · obtain ⟨heq, hstr, hpend, hdep, hterm, hev⟩ :=
          nextToken_step p t ⟨Or.inl ⟨t, hp, hpe⟩, he, h1, h2⟩ ht hp
        rw [heq]
        obtain ⟨hsync', herr', hne1, hne2⟩ := hstr
        refine ⟨hterm, herr', fun hc => absurd hc hne1, fun _ _ => hsync',
          d ++ [t], ?_, ?_, fun hc => absurd hc hne1⟩
        · rw [hpend, List.append_assoc]
          have : pendingAll p = t :: p.remaining := pendingAll_some p t hp
          rw [this] at hd
          simpa using hd
        · rw [hdep, hdepth, balance_append, balance_cons]
          simp
      · have hpts : pendingAll p = p.remaining := pendingAll_none p hn
        have hdts : d = ts := by rw [← hd, hpts, hrem]; simp
        rw [nextToken_stream_eq p he h1 h2]
        rw [deliver_eq_none _ (by simpa using hn) (by simpa using hpe)]
        simp only
        rw [peekNextToken_nil_eof _ (by simpa using hrem) (by simpa using ht)]
        refine ⟨by simpa using ht, by simpa using he, by simp, by simp, d, ?_,
          by simpa using hdepth, by simp⟩
        simp [pendingAll]
        rw [hrem]
        simpa using hdts

theorem inv_text (ts : List XmlToken) (x : XMLPullParser) (t : String)
    (h : Inv ts x) : Inv ts { x with text := t } := by
  obtain ⟨h1, h2, h3, h4, d, hd, hdep, hd0⟩ := h
  exact ⟨h1, h2, h3, h4, d, hd, hdep, hd0⟩

theorem reaches_inv (ts : List XmlToken) (p : XMLPullParser)
    (h : Reaches (NewXMLPullParser ts .eof) p) : Inv ts p := by
  induction h with
  | refl => exact inv_init ts
  | tail hab hbc ih =>
      obtain ⟨t, rfl⟩ := hbc
      exact inv_text ts _ t (inv_step ts _ ih)

/-- On well-formed input the depth invariant forces nonnegativity. -/
theorem inv_depth_nonneg (ts : List XmlToken) (p : XMLPullParser)
    (hts : Items ts) (h : Inv ts p) : 0 ≤ p.depth := by
  obtain ⟨_, _, _, _, d, hd, hdepth, _⟩ := h
  rw [hdepth]
  exact items_prefix_balance hts d (pendingAll p) hd

theorem reaches_nextToken (p : XMLPullParser) : Reaches p (NextToken p).2.2 :=
  Relation.ReflTransGen.single ⟨(NextToken p).2.2.text, rfl⟩

theorem reaches_trans {a b c : XMLPullParser} (h1 : Reaches a b) (h2 : Reaches b c) :
    Reaches a c :=
  Relation.ReflTransGen.trans h1 h2

theorem reaches_nextLoop (f : Nat) : ∀ (acc : String) (p : XMLPullParser),
    Reaches p (nextLoop f acc p).2.2 := by
  induction f with
  | zero => intro acc p; exact Relation.ReflTransGen.refl
  | succ f ih =>
      intro acc p
      simp only [nextLoop]
      rcases hnt : NextToken p with ⟨event, err, p1⟩
      have hr1 : Reaches p p1 := by
        have := reaches_nextToken p
        rwa [hnt] at this
      cases err with
      | some e => simpa using hr1
      | none =>
          simp only
          by_cases hA : event = .StartTag ∨ event = .EndTag ∨ event = .EndDocument
          · rw [if_pos hA]; exact hr1
          · rw [if_neg hA]
            by_cases hB : event = .Comment ∨ event = .Directive ∨
                event = .ProcessingInstruction
            · rw [if_pos hB]; exact reaches_trans hr1 (ih "" p1)
            · rw [if_neg hB]
              by_cases hC : (if event = .Text then acc ++ p1.text else acc) ≠ "" ∧
                  (p1.peekEvent = .StartTag ∨ p1.peekEvent = .EndTag ∨
                    p1.peekEvent = .EndDocument)
              · rw [if_pos hC]
                exact Relation.ReflTransGen.single
                  ⟨(if event = .Text then acc ++ p1.text else acc), by rw [hnt]⟩
              · rw [if_neg hC]
                exact reaches_trans hr1 (ih _ p1)

theorem reaches_next (p : XMLPullParser) : Reaches p (Next p).2.2 :=
  reaches_nextLoop _ "" p

theorem reaches_nextTag (p : XMLPullParser) : Reaches p (NextTag p).2.2 := by
  simp only [NextTag]
  rcases hn : Next p with ⟨t, err, p1⟩
  have hr1 : Reaches p p1 := by
    have := reaches_next p
    rwa [hn] at this
  cases err with
  | some e => simpa using hr1
  | none =>
      simp only
      by_cases hw : t = .Text ∧ isWhitespace p1
      · rw [if_pos hw]
        rcases hn2 : Next p1 with ⟨t2, err2, p2⟩
        have hr2 : Reaches p p2 := by
          have := reaches_next p1
          rw [hn2] at this
          exact reaches_trans hr1 this
        cases err2 with
        | some e2 => simpa using hr2
        | none =>
            simp only
            by_cases hq : t2 ≠ .StartTag ∧ t2 ≠ .EndTag
            · rw [if_pos hq]; exact hr2
            · rw [if_neg hq]; exact hr2
      · rw [if_neg hw]
        simp only
        by_cases hq : t ≠ .StartTag ∧ t ≠ .EndTag
        · rw [if_pos hq]; exact hr1
        · rw [if_neg hq]; exact hr1

theorem reaches_nextText (p : XMLPullParser) : Reaches p (NextText p).2.2 := by
  simp only [NextText]
  by_cases h0 : p.event ≠ .StartTag
  · rw [if_pos h0]; exact Relation.ReflTransGen.refl
  · rw [if_neg h0]
    rcases hn : Next p with ⟨t, err, p1⟩
    have hr1 : Reaches p p1 := by
      have := reaches_next p
      rwa [hn] at this
    cases err with
    | some e => simpa using hr1
    | none =>
        simp only
        by_cases ht : t = .Text
        · rw [if_pos ht]
          rcases hn2 : Next p1 with ⟨t2, err2, p2⟩
          have hr2 : Reaches p p2 := by
            have := reaches_next p1
            rw [hn2] at this
            exact reaches_trans hr1 this
          cases err2 with
          | some e2 => simpa using hr2
          | none =>
              simp only
              by_cases hq : t2 ≠ .EndTag
              · rw [if_pos hq]; exact hr2
              · rw [if_neg hq]; exact hr2
        · rw [if_neg ht]
          by_cases he : t = .EndTag
          · rw [if_pos he]; exact hr1
          · rw [if_neg he]; exact hr1

theorem reaches_skipFuel (f : Nat) : ∀ (p : XMLPullParser) (r : Option String)
    (q : XMLPullParser), skipFuel f p = some (r, q) → Reaches p q := by
  induction f with
  | zero => intro p r q h; cases h
  | succ f ih =>
      intro p r q h
      simp only [skipFuel] at h
      rcases hnt : NextToken p with ⟨tok, err, p1⟩
      rw [hnt] at h
      have hr1 : Reaches p p1 := by
        have := reaches_nextToken p
        rwa [hnt] at this
      cases err with
      | some e =>
          simp only at h
          injection h with h2
          injection h2 with _ h3
          rw [← h3]; exact hr1
      | none =>
          simp only at h
          by_cases hS : tok = .StartTag
          · rw [if_pos hS] at h
            rcases hsk : skipFuel f p1 with _ | ⟨r2, p2⟩
            · rw [hsk] at h; cases h
            · rw [hsk] at h
              cases r2 with
              | some e2 =>
                  simp only at h
                  injection h with h2
                  injection h2 with _ h3
                  rw [← h3]
                  exact reaches_trans hr1 (ih p1 _ _ hsk)
              | none =>
                  simp only at h
                  exact reaches_trans (reaches_trans hr1 (ih p1 _ _ hsk)) (ih p2 _ _ h)
          · rw [if_neg hS] at h
            by_cases hE : tok = .EndTag
            · rw [if_pos hE] at h
              injection h with h2
              injection h2 with _ h3
              rw [← h3]; exact hr1
            · rw [if_neg hE] at h
              exact reaches_trans hr1 (ih p1 _ _ h)

theorem reaches_skip (p : XMLPullParser) (r : Option String) (q : XMLPullParser)
    (h : Skip p = some (r, q)) : Reaches p q :=
  reaches_skipFuel _ p r q h

theorem pending_head (p : XMLPullParser) (t : XmlToken) (l : List XmlToken)
    (hs : Sync p) (hp : pendingAll p = t :: l) :
    p.peekToken = some t ∧ p.remaining = l := by
  rcases hs with ⟨u, hu, _⟩ | ⟨hn, _, hrem⟩
  · rw [pendingAll_some p u hu] at hp
    injection hp with h1 h2
    exact ⟨h1 ▸ hu, h2⟩
  · rw [pendingAll_none p hn, hrem] at hp
    cases hp

/-- Delivering a block of pending tokens adds its balance to the depth and
leaves the rest pending. -/
theorem consumeN (ts₀ : List XmlToken) : ∀ (p : XMLPullParser) (rest : List XmlToken),
    Streaming p → p.terminal = .eof → pendingAll p = ts₀ ++ rest →
    (ntN ts₀.length p).depth = p.depth + balance ts₀ ∧
      pendingAll (ntN ts₀.length p) = rest ∧ Streaming (ntN ts₀.length p) ∧
      (ntN ts₀.length p).terminal = .eof := by
  induction ts₀ with
  | nil =>
      intro p rest hs ht hp
      simp only [ntN, List.nil_append] at hp ⊢
      exact ⟨by simp, hp, hs, ht⟩
  | cons t ts₀ ih =>
      intro p rest hs ht hp
      rw [List.cons_append] at hp
      obtain ⟨hpt, hrem⟩ := pending_head p t _ hs.1 hp
      obtain ⟨heq, hstr, hpend, hdep, hterm, _⟩ := nextToken_step p t hs ht hpt
      have hstep : (NextToken p).2.2 = deliverAt (resetTokenState p) t := by rw [heq]
      simp only [List.length_cons, ntN, hstep]
      have hpend' : pendingAll (deliverAt (resetTokenState p) t) = ts₀ ++ rest := by
        rw [hpend, hrem]
      obtain ⟨ihd, ihp, ihs, iht⟩ := ih (deliverAt (resetTokenState p) t) rest hstr hterm hpend'
      refine ⟨?_, ihp, ihs, iht⟩
      rw [ihd, hdep, balance_cons]
      omega

/-- Inside a well-formed subtree, Skip consumes the inner forest and the
matching end tag, returning positioned on that end tag with depth one less. -/
theorem skipFuel_items (inner : List XmlToken) (hinner : Items inner) :
    ∀ (p : XMLPullParser) (n : XmlName) (rest : List XmlToken) (f : Nat),
    Streaming p → p.terminal = .eof →
    pendingAll p = inner ++ .endElement n :: rest →
    inner.length + 2 ≤ f →
    ∃ p', skipFuel f p = some (none, p') ∧ p'.event = .EndTag ∧
      p'.name = n.localName ∧ p'.depth = p.depth - 1 ∧ pendingAll p' = rest ∧
      Streaming p' ∧ p'.terminal = .eof := by
  induction hinner with
  | nil =>
      intro p n rest f hs ht hp hf
      rw [List.nil_append] at hp
      obtain ⟨hpt, hrem⟩ := pending_head p _ _ hs.1 hp
      obtain ⟨heq, hstr, hpend, hdep, hterm, hev⟩ := nextToken_step p _ hs ht hpt
      obtain ⟨f', rfl⟩ : ∃ f', f = f' + 1 := ⟨f - 1, by omega⟩
      refine ⟨deliverAt (resetTokenState p) (.endElement n), ?_, ?_, ?_, ?_, ?_, hstr, hterm⟩
      · simp only [skipFuel, heq]
        simp [eventType]
      · rw [hev]; rfl
      · exact deliverAt_name_endElement _ n
      · rw [hdep]; simp only [tokenBal]; omega
      · rw [hpend, hrem]
  | flat t ts hflat hts ih =>
      intro p n rest f hs ht hp hf
      rw [List.cons_append] at hp
      obtain ⟨hpt, hrem⟩ := pending_head p t _ hs.1 hp
      obtain ⟨heq, hstr, hpend, hdep, hterm, hev⟩ := nextToken_step p t hs ht hpt
      obtain ⟨f', rfl⟩ : ∃ f', f = f' + 1 := ⟨f - 1, by omega⟩
      have hpend' : pendingAll (deliverAt (resetTokenState p) t) =
          ts ++ .endElement n :: rest := by rw [hpend, hrem]
      have hf' : ts.length + 2 ≤ f' := by
        simp only [List.length_cons] at hf
        omega
      obtain ⟨p', hskip, h1, h2, h3, h4, h5, h6⟩ :=
        ih (deliverAt (resetTokenState p) t) n rest f' hstr hterm hpend' hf'
      obtain ⟨hne1, hne2⟩ := isTag_false_eventType t hflat
      refine ⟨p', ?_, h1, h2, ?_, h4, h5, h6⟩
      · simp only [skipFuel, heq]
        rw [if_neg hne1, if_neg hne2]
        exact hskip
      · rw [h3, hdep, isTag_false_bal t hflat]
        omega
  | node n' attrs innerF ts n2' hi hts ihi ihts =>
      intro p n rest f hs ht hp hf
      simp only [List.cons_append, List.append_assoc] at hp
      obtain ⟨hpt, hrem⟩ := pending_head p _ _ hs.1 hp
      obtain ⟨heq, hstr, hpend, hdep, hterm, hev⟩ := nextToken_step p _ hs ht hpt
      obtain ⟨f', rfl⟩ : ∃ f', f = f' + 1 := ⟨f - 1, by omega⟩
      have hlen : innerF.length + ts.length + 3 ≤ f' + 1 := by
        have := hf
        simp only [List.length_cons, List.length_append] at this
        omega
      have hpend1 : pendingAll (deliverAt (resetTokenState p) (.startElement n' attrs)) =
          innerF ++ .endElement n2' :: (ts ++ .endElement n :: rest) := by
        rw [hpend, hrem]
      obtain ⟨p2, hskip2, h21, h22, h23, h24, h25, h26⟩ :=
        ihi (deliverAt (resetTokenState p) (.startElement n' attrs)) n2'
          (ts ++ .endElement n :: rest) f' hstr hterm hpend1 (by omega)
      obtain ⟨p3, hskip3, h31, h32, h33, h34, h35, h36⟩ :=
        ihts p2 n rest f' h25 h26 h24 (by omega)
      refine ⟨p3, ?_, h31, h32, ?_, h34, h35, h36⟩
      · rw [skipFuel, heq]
        simp only [eventType, if_pos rfl, hskip2]
        exact hskip3
      · rw [h33, h23, hdep]
        simp only [tokenBal]
        omega

theorem append_ne_empty_left (a b : String) (h : a ≠ "") : a ++ b ≠ "" := by
  intro hc
  have hd : (a ++ b).data = [] := by rw [hc]
  rw [String.data_append] at hd
  rcases List.append_eq_nil.mp hd with ⟨h1, _⟩
  exact h (String.ext h1)

theorem isTag_true_eventType (t : XmlToken) (h : isTag t = true) :
    eventType t = .StartTag ∨ eventType t = .EndTag := by
  cases t <;> simp_all [isTag, eventType]

theorem deliverAt_peek_cons (q : XMLPullParser) (t u : XmlToken) (rest : List XmlToken)
    (hr : q.remaining = u :: rest) :
    (deliverAt q t).peekEvent = eventType u ∧ (deliverAt q t).peekToken = some u ∧
      (deliverAt q t).remaining = rest := by
  unfold deliverAt
  have hpr : (processToken { q with event := eventType t, token := some t }
      (some t)).remaining = u :: rest := by
    rw [processToken_remaining]; simpa using hr
  rw [peekNextToken_cons _ u rest hpr]
  exact ⟨rfl, rfl, rfl⟩

theorem deliverAt_peek_nil_eof (q : XMLPullParser) (t : XmlToken)
    (hr : q.remaining = []) (ht : q.terminal = .eof) :
    (deliverAt q t).peekEvent = .EndDocument := by
  unfold deliverAt
  have hpr : (processToken { q with event := eventType t, token := some t }
      (some t)).remaining = [] := by
    rw [processToken_remaining]; simpa using hr
  rw [peekNextToken_nil_eof _ hpr (by rw [processToken_terminal]; simpa using ht)]

/-- An uninterrupted run of character-data tokens ending at a structural
boundary is coalesced by the Next loop into a single Text event carrying the
concatenation of the accumulator and the run's payloads. -/
theorem nextLoop_run (cds : List String) :
    ∀ (acc c : String) (p : XMLPullParser) (btok : XmlToken) (rest : List XmlToken)
      (f : Nat),
    Streaming p → p.terminal = .eof →
    pendingAll p = .charData c :: (cds.map .charData ++ btok :: rest) →
    isTag btok = true →
    acc ++ (c ++ strConcat cds) ≠ "" →
    cds.length + 1 ≤ f →
    ∃ p', nextLoop f acc p = (.Text, none, p') ∧
      p'.text = acc ++ (c ++ strConcat cds) ∧ pendingAll p' = btok :: rest := by
  induction cds with
  | nil =>
      intro acc c p btok rest f hs ht hp htag hne hf
      obtain ⟨f', rfl⟩ : ∃ f', f = f' + 1 := ⟨f - 1, by omega⟩
      simp only [List.map_nil, List.nil_append] at hp
      obtain ⟨hpt, hrem⟩ := pending_head p _ _ hs.1 hp
      obtain ⟨heq, hstr, hpend, hdep, hterm, hev⟩ := nextToken_step p _ hs ht hpt
      have htext : (deliverAt (resetTokenState p) (.charData c)).text = c :=
        deliverAt_text_charData _ c
      obtain ⟨hpe1, hpt1, hrem1⟩ :=
        deliverAt_peek_cons (resetTokenState p) (.charData c) btok rest (by simpa using hrem)
      have hne' : acc ++ c ≠ "" := by
        rw [strConcat, String.append_empty] at hne
        exact hne
      have hbound : (deliverAt (resetTokenState p) (.charData c)).peekEvent = .StartTag ∨
          (deliverAt (resetTokenState p) (.charData c)).peekEvent = .EndTag ∨
          (deliverAt (resetTokenState p) (.charData c)).peekEvent = .EndDocument := by
        rw [hpe1]
        rcases isTag_true_eventType btok htag with h | h
        · exact Or.inl h
        · exact Or.inr (Or.inl h)
      refine ⟨{ deliverAt (resetTokenState p) (.charData c) with text := acc ++ c }, ?_, ?_, ?_⟩
      · simp only [nextLoop, heq, eventType]
        rw [if_neg (by simp), if_neg (by simp)]
        simp only [htext, if_pos rfl]
        rw [if_pos ⟨hne', hbound⟩]
        simp
      · simp only
        rw [strConcat, String.append_empty]
      · have hpa : pendingAll
            { deliverAt (resetTokenState p) (.charData c) with text := acc ++ c } =
            pendingAll (deliverAt (resetTokenState p) (.charData c)) := rfl
        rw [hpa, hpend, hrem]
  | cons c2 cds ih =>
      intro acc c p btok rest f hs ht hp htag hne hf
      obtain ⟨f', rfl⟩ : ∃ f', f = f' + 1 := ⟨f - 1, by omega⟩
      simp only [List.map_cons, List.cons_append] at hp
      obtain ⟨hpt, hrem⟩ := pending_head p _ _ hs.1 hp
      obtain ⟨heq, hstr, hpend, hdep, hterm, hev⟩ := nextToken_step p _ hs ht hpt
      have htext : (deliverAt (resetTokenState p) (.charData c)).text = c :=
        deliverAt_text_charData _ c
      obtain ⟨hpe1, hpt1, hrem1⟩ :=
        deliverAt_peek_cons (resetTokenState p) (.charData c) (.charData c2) _
          (by simpa using hrem)
      have hpend1 : pendingAll (deliverAt (resetTokenState p) (.charData c)) =
          .charData c2 :: (cds.map .charData ++ btok :: rest) := by
        rw [hpend, hrem]
      have hne2 : (acc ++ c) ++ (c2 ++ strConcat cds) ≠ "" := by
        rw [String.append_assoc]
        rw [strConcat] at hne
        exact hne
      obtain ⟨p', hloop, htxt, hpnd⟩ :=
        ih (acc ++ c) c2 (deliverAt (resetTokenState p) (.charData c)) btok rest f'
          hstr hterm hpend1 htag hne2 (by simp only [List.length_cons] at hf; omega)
      refine ⟨p', ?_, ?_, hpnd⟩
      · simp only [nextLoop, heq, eventType]
        rw [if_neg (by simp), if_neg (by simp)]
        simp only [htext, if_pos rfl]
        rw [if_neg]
        · simpa using hloop
        · intro hc
          rcases hc.2 with h | h | h <;> rw [hpe1] at h <;> simp [eventType] at h
      · rw [htxt, strConcat, String.append_assoc]

/-- A comment, directive or processing instruction arriving during a
character-data run is absorbed by the Next loop and resets the accumulator:
the text gathered before it is discarded and the merged Text event carries
only the payload gathered after it. -/
theorem nextLoop_interrupt (cds : List String) :
    ∀ (acc s : String) (p : XMLPullParser) (it btok : XmlToken) (rest : List XmlToken)
      (f : Nat),
    Streaming p → p.terminal = .eof →
    pendingAll p = cds.map .charData ++ it :: .charData s :: btok :: rest →
    (eventType it = .Comment ∨ eventType it = .Directive ∨
      eventType it = .ProcessingInstruction) →
    isTag btok = true → s ≠ "" →
    cds.length + 3 ≤ f →
    ∃ p', nextLoop f acc p = (.Text, none, p') ∧ p'.text = s ∧
      pendingAll p' = btok :: rest := by
  induction cds with
  | nil =>
      intro acc s p it btok rest f hs ht hp hint htag hsne hf
      obtain ⟨f', rfl⟩ : ∃ f', f = f' + 1 := ⟨f - 1, by omega⟩
      simp only [List.map_nil, List.nil_append] at hp
      obtain ⟨hpt, hrem⟩ := pending_head p _ _ hs.1 hp
      obtain ⟨heq, hstr, hpend, hdep, hterm, hev⟩ := nextToken_step p _ hs ht hpt
      have hpend1 : pendingAll (deliverAt (resetTokenState p) it) =
          .charData s :: (([] : List String).map .charData ++ btok :: rest) := by
        rw [hpend, hrem]; simp
      have hne1 : "" ++ (s ++ strConcat []) ≠ "" := by
        rw [strConcat, String.append_empty, String.empty_append]
        exact hsne
      obtain ⟨p', hloop, htxt, hpnd⟩ :=
        nextLoop_run [] "" s (deliverAt (resetTokenState p) it) btok rest f'
          hstr hterm hpend1 htag hne1 (by simp; omega)
      refine ⟨p', ?_, ?_, hpnd⟩
      · rcases hint with hI | hI | hI <;>
          (rw [hI] at heq; simp only [nextLoop, heq];
           rw [if_neg (by simp), if_pos (by simp)]; exact hloop)
      · rw [htxt, strConcat, String.append_empty, String.empty_append]
  | cons c2 cds ih =>
      intro acc s p it btok rest f hs ht hp hint htag hsne hf
      obtain ⟨f', rfl⟩ : ∃ f', f = f' + 1 := ⟨f - 1, by omega⟩
      simp only [List.map_cons, List.cons_append] at hp
      obtain ⟨hpt, hrem⟩ := pending_head p _ _ hs.1 hp
      obtain ⟨heq, hstr, hpend, hdep, hterm, hev⟩ := nextToken_step p _ hs ht hpt
      have htext : (deliverAt (resetTokenState p) (.charData c2)).text = c2 :=
        deliverAt_text_charData _ c2
      have hpend1 : pendingAll (deliverAt (resetTokenState p) (.charData c2)) =
          cds.map .charData ++ it :: .charData s :: btok :: rest := by
        rw [hpend, hrem]
      have hpeNB : (deliverAt (resetTokenState p) (.charData c2)).peekEvent ≠ .StartTag ∧
          (deliverAt (resetTokenState p) (.charData c2)).peekEvent ≠ .EndTag ∧
          (deliverAt (resetTokenState p) (.charData c2)).peekEvent ≠ .EndDocument := by
        cases hcds : cds with
        | nil =>
            rw [hcds] at hrem
            simp only [List.map_nil, List.nil_append] at hrem
            obtain ⟨hpe1, _, _⟩ :=
              deliverAt_peek_cons (resetTokenState p) (.charData c2) it _ (by simpa using hrem)
            rw [hpe1]
            rcases hint with hI | hI | hI <;> rw [hI] <;> simp
        | cons c3 cds' =>
            rw [hcds] at hrem
            simp only [List.map_cons, List.cons_append] at hrem
            obtain ⟨hpe1, _, _⟩ :=
              deliverAt_peek_cons (resetTokenState p) (.charData c2) (.charData c3) _
                (by simpa using hrem)
            rw [hpe1]
            simp [eventType]
      obtain ⟨p', hloop, htxt, hpnd⟩ :=
        ih (acc ++ c2) s (deliverAt (resetTokenState p) (.charData c2)) it btok rest f'
          hstr hterm hpend1 hint htag hsne
          (by simp only [List.length_cons] at hf; omega)
      refine ⟨p', ?_, htxt, hpnd⟩
      simp only [nextLoop, heq, eventType]
      rw [if_neg (by simp), if_neg (by simp)]
      simp only [htext, if_pos rfl]
      rw [if_neg]
      · simpa using hloop
      · intro hc
        rcases hc.2 with h | h | h
        · exact hpeNB.1 h
        · exact hpeNB.2.1 h
        · exact hpeNB.2.2 h

theorem streaming_pending_length (p : XMLPullParser) (hs : Sync p)
    (hne : pendingAll p ≠ []) :
    (pendingAll p).length = p.remaining.length + 1 := by
  rcases hs with ⟨t, hu, _⟩ | ⟨hn, _, hrem⟩
  · rw [pendingAll_some p t hu]; simp
  · rw [pendingAll_none p hn, hrem] at hne
    exact absurd rfl hne

/-- C1 counterexample: on the token stream charData "a", comment, charData
"b", the first Next call returns a Text event whose payload is "b" — the
text "a" accumulated before the comment was discarded, not kept — and no
subsequent call ever emits the comment as its own event: the second Next
returns EndDocument.  The claim instead demands Text "a" first and the
Comment event next. -/
theorem c1_counterexample :
    (Next (NewXMLPullParser tsTexts .eof)).1 = .Text ∧
      (Next (NewXMLPullParser tsTexts .eof)).2.1 = none ∧
      (Next (NewXMLPullParser tsTexts .eof)).2.2.text = "b" ∧
      (Next (NewXMLPullParser tsTexts .eof)).2.2.text ≠ "a" ∧
      (Next (Next (NewXMLPullParser tsTexts .eof)).2.2).1 = .EndDocument ∧
      (Next (Next (NewXMLPullParser tsTexts .eof)).2.2).1 ≠ .Comment := by
  decide

/-- C1 (amended): Next merges a maximal uninterrupted run of contiguous
character-data tokens into one Text event concatenating the payloads in
encounter order; but a non-text token (comment, directive, processing
instruction) occurring during such a run is silently absorbed — it is never
emitted by Next as its own event — and discards the text accumulated so
far: coalescing restarts from empty after it. -/
theorem c1_amended :
    (∀ (c : String) (cds : List String) (p : XMLPullParser) (btok : XmlToken)
        (rest : List XmlToken),
      Streaming p → p.terminal = .eof →
      pendingAll p = .charData c :: (cds.map .charData ++ btok :: rest) →
      isTag btok = true → c ++ strConcat cds ≠ "" →
      ∃ p', Next p = (.Text, none, p') ∧ p'.text = c ++ strConcat cds ∧
        pendingAll p' = btok :: rest) ∧
    (∀ (cds : List String) (s : String) (p : XMLPullParser) (it btok : XmlToken)
        (rest : List XmlToken),
      Streaming p → p.terminal = .eof →
      pendingAll p = cds.map .charData ++ it :: .charData s :: btok :: rest →
      (eventType it = .Comment ∨ eventType it = .Directive ∨
        eventType it = .ProcessingInstruction) →
      isTag btok = true → s ≠ "" →
      ∃ p', Next p = (.Text, none, p') ∧ p'.text = s ∧
        pendingAll p' = btok :: rest) := by
  constructor
  · intro c cds p btok rest hs ht hp htag hne
    have hlen : (pendingAll p).length = p.remaining.length + 1 :=
      streaming_pending_length p hs.1 (by rw [hp]; simp)
    have hfuel : cds.length + 1 ≤ p.remaining.length + 3 := by
      rw [hp] at hlen
      simp [List.length_append] at hlen
      omega
    obtain ⟨p', hloop, htxt, hpnd⟩ :=
      nextLoop_run cds "" c p btok rest (p.remaining.length + 3) hs ht hp htag
        (by rw [String.empty_append]; exact hne) hfuel
    refine ⟨p', hloop, ?_, hpnd⟩
    rw [htxt, String.empty_append]
  · intro cds s p it btok rest hs ht hp hint htag hsne
    have hlen : (pendingAll p).length = p.remaining.length + 1 :=
      streaming_pending_length p hs.1 (by rw [hp]; intro hc; simp at hc)
    have hfuel : cds.length + 3 ≤ p.remaining.length + 3 := by
      rw [hp] at hlen
      simp [List.length_append] at hlen
      omega
    exact nextLoop_interrupt cds "" s p it btok rest (p.remaining.length + 3)
      hs ht hp hint htag hsne hfuel

/-- Witness for C1 (amended), applying it at a concrete mid-stream state. -/
theorem c1_amended_witness :
    ∃ p', Next wpRun = (.Text, none, p') ∧ p'.text = "hi" ++ strConcat [] ∧
      pendingAll p' = [.endElement ⟨"", "r"⟩] := by
  exact c1_amended.1 "hi" [] wpRun (.endElement ⟨"", "r"⟩) []
    ⟨Or.inl ⟨.charData "hi", rfl, rfl⟩, rfl, by decide, by decide⟩
    rfl rfl rfl (by decide)

/-- C2: the code at the claimed failing input.  Running the parser over the
stream of the self-closing document, after the end tag that closes the
declaring element has been processed and the cursor sits on the start tag
of the following element x, the namespace table still maps "z" to "a":
processEndToken never removes declarations, diverging from the claim (and
from the repository's own test) that the table is empty there.  The first
half of the claim — the table while positioned on the declaring element —
does hold. -/
theorem c2_code_divergence :
    ((ntN 1 (NewXMLPullParser tsSelfClosing .eof)).event = .StartTag ∧
      (ntN 1 (NewXMLPullParser tsSelfClosing .eof)).name = "y" ∧
      mapGet (ntN 1 (NewXMLPullParser tsSelfClosing .eof)).spaces "z" = some "a") ∧
    ((ntN 3 (NewXMLPullParser tsSelfClosing .eof)).event = .StartTag ∧
      (ntN 3 (NewXMLPullParser tsSelfClosing .eof)).name = "x" ∧
      mapGet (ntN 3 (NewXMLPullParser tsSelfClosing .eof)).spaces "z" = some "a" ∧
      (ntN 3 (NewXMLPullParser tsSelfClosing .eof)).spaces ≠ []) := by
  decide

/-- C8 counterexample: a character-data token whose payload trims to empty
is reported by NextToken as Text, not IgnorableWhitespace. -/
theorem c8_counterexample :
    goTrim "   " = "" ∧
      (NextToken (NewXMLPullParser [.charData "   "] .eof)).1 = .Text ∧
      (NextToken (NewXMLPullParser [.charData "   "] .eof)).1 ≠
        .IgnorableWhitespace := by
  decide

/-- C8 (amended): every character-data token is classified and reported by
NextToken as Text, whether or not its trimmed payload is empty; the
IgnorableWhitespace event is never produced for any token. -/
theorem c8_amended :
    (∀ s, eventType (.charData s) = .Text) ∧
      (∀ t, eventType t ≠ .IgnorableWhitespace) ∧
      (∀ (p : XMLPullParser) (s : String), Streaming p → p.terminal = .eof →
        p.peekToken = some (.charData s) →
        (NextToken p).1 = .Text ∧ (NextToken p).2.1 = none) := by
  refine ⟨fun s => rfl, eventType_ne_ignorable, ?_⟩
  intro p s hs ht hp
  obtain ⟨heq, _⟩ := nextToken_step p _ hs ht hp
  rw [heq]
  exact ⟨rfl, rfl⟩

theorem ntN_endDocument (k : Nat) : ∀ p : XMLPullParser, p.event = .EndDocument →
    p.peekErr = none → (ntN k p).event = .EndDocument ∧ (ntN k p).peekErr = none := by
  induction k with
  | zero => intro p h he; exact ⟨h, he⟩
  | succ k ih =>
      intro p h he
      simp only [ntN]
      rw [nextToken_endDocument p he h]
      exact ih _ (by simpa using h) (by simpa using he)

/-- C4: end of input is never surfaced as an error.  On the empty source the
first NextToken already returns EndDocument with no error; in general, when
the lookahead has been filled with the end-of-input EndDocument peek,
the delivering NextToken call returns EndDocument with no error and leaves
the cursor in the EndDocument state; and from the EndDocument state every
later NextToken call, after any number of further calls, again returns
EndDocument with no error, forever. -/
theorem c4_end_of_input :
    ((NextToken (NewXMLPullParser [] .eof)).1 = .EndDocument ∧
      (NextToken (NewXMLPullParser [] .eof)).2.1 = none ∧
      (NextToken (NewXMLPullParser [] .eof)).2.2.event = .EndDocument) ∧
    (∀ p : XMLPullParser, p.peekErr = none → p.peekToken = none →
      p.peekEvent = .EndDocument → p.remaining = [] → p.terminal = .eof →
      p.event ≠ .StartDocument → p.event ≠ .EndDocument →
      (NextToken p).1 = .EndDocument ∧ (NextToken p).2.1 = none ∧
      (NextToken p).2.2.event = .EndDocument ∧ (NextToken p).2.2.peekErr = none) ∧
    (∀ (p : XMLPullParser) (k : Nat), p.event = .EndDocument → p.peekErr = none →
      (NextToken (ntN k p)).1 = .EndDocument ∧ (NextToken (ntN k p)).2.1 = none) := by
  refine ⟨by decide, ?_, ?_⟩
  · intro p he hpt hpe hrem ht h1 h2
    rw [nextToken_stream_eq p he h1 h2,
      deliver_eq_none _ (by simpa using hpt) (by simpa using hpe)]
    simp only
    rw [peekNextToken_nil_eof _ (by simpa using hrem) (by simpa using ht)]
    exact ⟨by trivial, by trivial, by trivial, by simpa using he⟩
  · intro p k h he
    obtain ⟨hev, herr⟩ := ntN_endDocument k p h he
    rw [nextToken_endDocument _ herr hev]
    exact ⟨by trivial, by trivial⟩

/-- Witness for C4 at a concrete exhausted source, three calls deep. -/
theorem c4_witness :
    (NextToken (ntN 3 (NextToken (NewXMLPullParser [] .eof)).2.2)).1 =
        .EndDocument ∧
      (NextToken (ntN 3 (NextToken (NewXMLPullParser [] .eof)).2.2)).2.1 = none := by
  exact c4_end_of_input.2.2 (NextToken (NewXMLPullParser [] .eof)).2.2 3
    (by decide) (by decide)

theorem deliver_errOut (q : XMLPullParser) : (deliver q).2.1 = none := rfl

theorem nextToken_errOut (p : XMLPullParser) : (NextToken p).2.1 = p.peekErr := by
  cases hpe : p.peekErr with
  | some e => rw [nextToken_err p e hpe]
  | none =>
      by_cases h1 : p.event = .StartDocument
      · rw [nextToken_startDocument p hpe h1]; exact deliver_errOut _
      · by_cases h2 : p.event = .EndDocument
        · rw [nextToken_endDocument p hpe h2]
        · rw [nextToken_stream_eq p hpe h1 h2]; exact deliver_errOut _

theorem ntN_err (k : Nat) : ∀ (p : XMLPullParser) (e : String), p.peekErr = some e →
    (ntN k p).peekErr = some e ∧ (ntN k p).remaining = p.remaining := by
  induction k with
  | zero => intro p e h; exact ⟨h, rfl⟩
  | succ k ih =>
      intro p e h
      simp only [ntN]
      rw [nextToken_err p e h]
      obtain ⟨h1, h2⟩ := ih (resetTokenState p) e (by simpa using h)
      exact ⟨h1, by rw [h2]; simp⟩

/-- C9: once the source's lexical error has been peeked it is cached in
peekErr; a NextToken call returns an error only when that cache holds it,
and such a call changes nothing but the per-token fields; and from any
state with a cached error, every later NextToken call — after any number
of intervening calls — returns the very same error, with the undecoded
input never consumed again. -/
theorem c9_error_latching :
    (∀ (p : XMLPullParser) (e : String), p.remaining = [] → p.terminal = .err e →
      (peekNextToken p).peekErr = some e) ∧
    (∀ (p p' : XMLPullParser) (ev : XMLEventType) (e : String),
      NextToken p = (ev, some e, p') →
      p.peekErr = some e ∧ p' = resetTokenState p ∧ p'.peekErr = some e) ∧
    (∀ (p : XMLPullParser) (e : String) (k : Nat), p.peekErr = some e →
      (NextToken (ntN k p)).1 = .StartDocument ∧
        (NextToken (ntN k p)).2.1 = some e ∧
        (ntN k p).remaining = p.remaining) := by
  refine ⟨?_, ?_, ?_⟩
  · intro p e hrem ht
    rw [peekNextToken_nil_err p e hrem ht]
  · intro p p' ev e heq
    have h1 : p.peekErr = some e := by rw [← nextToken_errOut p, heq]
    have h4 := heq.symm.trans (nextToken_err p e h1)
    injection h4 with _ h5
    injection h5 with _ h6
    exact ⟨h1, h6, by rw [h6]; simpa using h1⟩
  · intro p e k h
    obtain ⟨herr, hrem⟩ := ntN_err k p e h
    rw [nextToken_err _ e herr]
    exact ⟨rfl, rfl, hrem⟩

/-- Witness for C9 at a concrete state holding a cached lexical error. -/
theorem c9_witness :
    (NextToken (ntN 3
        { remaining := [.charData "x"], terminal := .err "boom", spaces := [],
          depth := 0, event := .Text, attrs := [], name := "", space := "",
          text := "", token := none, peekToken := none, peekEvent := .Text,
          peekErr := some "boom" })).2.1 = some "boom" ∧
      (ntN 3
        { remaining := [.charData "x"], terminal := .err "boom", spaces := [],
          depth := 0, event := .Text, attrs := [], name := "", space := "",
          text := "", token := none, peekToken := none, peekEvent := .Text,
          peekErr := some "boom" }).remaining = [.charData "x"] := by
  obtain ⟨_, h2, h3⟩ := c9_error_latching.2.2
    { remaining := [.charData "x"], terminal := .err "boom", spaces := [],
      depth := 0, event := .Text, attrs := [], name := "", space := "",
      text := "", token := none, peekToken := none, peekEvent := .Text,
      peekErr := some "boom" } "boom" 3 rfl
  exact ⟨h2, h3⟩

theorem mapGet_mapSet_self (m : List (String × String)) (k v : String) :
    mapGet (mapSet m k v) k = some v := by
  induction m with
  | nil => simp [mapSet, mapGet]
  | cons kv rest ih =>
      obtain ⟨k', v'⟩ := kv
      by_cases h : k' = k
      · simp [mapSet, mapGet, h]
      · simp [mapSet, mapGet, h, ih]

theorem mapGet_mapSet_ne (m : List (String × String)) (k k' v : String)
    (h : k' ≠ k) : mapGet (mapSet m k' v) k = mapGet m k := by
  induction m with
  | nil => simp [mapSet, mapGet, h]
  | cons kv rest ih =>
      obtain ⟨k'', v''⟩ := kv
      by_cases h2 : k'' = k'
      · simp [mapSet, mapGet, h2, h]
      · by_cases h3 : k'' = k
        · simp [mapSet, mapGet, h2, h3, Ne.symm h]
        · simp [mapSet, mapGet, h2, h3, ih]

theorem trackNamespaces_append (spaces : List (String × String))
    (l1 l2 : List XmlAttr) :
    trackNamespaces spaces (l1 ++ l2) =
      trackNamespaces (trackNamespaces spaces l1) l2 := by
  simp [trackNamespaces, List.foldl_append]

theorem trackNamespaces_cons (spaces : List (String × String)) (a : XmlAttr)
    (l : List XmlAttr) :
    trackNamespaces spaces (a :: l) =
      trackNamespaces
        (if a.name.space = "xmlns" then
          mapSet spaces (goTrim a.value) (goTrim (goToLower a.name.localName))
        else if a.name.localName = "xmlns" then mapSet spaces (goTrim a.value) ""
        else spaces) l := by
  simp [trackNamespaces]

theorem trackNamespaces_noDecl (l : List XmlAttr) :
    ∀ (m : List (String × String)) (k : String),
    (∀ b ∈ l, nsKey b ≠ some k) → mapGet (trackNamespaces m l) k = mapGet m k := by
  induction l with
  | nil => intro m k _; rfl
  | cons b l ih =>
      intro m k h
      rw [trackNamespaces_cons]
      have hb := h b (List.mem_cons_self b l)
      have hrec := fun m => ih m k (fun b' hb' => h b' (List.mem_cons_of_mem b hb'))
      by_cases h1 : b.name.space = "xmlns"
      · rw [if_pos h1, hrec]
        apply mapGet_mapSet_ne
        intro hc
        exact hb (by simp [nsKey, h1, hc])
      · by_cases h2 : b.name.localName = "xmlns"
        · rw [if_neg h1, if_pos h2, hrec]
          apply mapGet_mapSet_ne
          intro hc
          exact hb (by simp [nsKey, h1, h2, hc])
        · rw [if_neg h1, if_neg h2]
          exact hrec m

/-- C10: for every processed start tag, an attribute in the xmlns namespace
is recorded in the namespace table as a mapping from its whitespace-trimmed
value to the trimmed, lower-cased local name (so mixed-case declared
prefixes are stored lower-case), and an attribute outside that namespace
whose local name is exactly xmlns records the trimmed value mapped to the
empty prefix — in each case provided no later attribute of the same tag
declares the same trimmed URI again (Go map semantics keep the last
writer). -/
theorem c10_namespace_recording :
    ∀ (spaces : List (String × String)) (l1 l2 : List XmlAttr) (a : XmlAttr),
      (∀ b ∈ l2, nsKey b ≠ some (goTrim a.value)) →
      (a.name.space = "xmlns" →
        mapGet (trackNamespaces spaces (l1 ++ a :: l2)) (goTrim a.value) =
          some (goTrim (goToLower a.name.localName))) ∧
      (a.name.space ≠ "xmlns" → a.name.localName = "xmlns" →
        mapGet (trackNamespaces spaces (l1 ++ a :: l2)) (goTrim a.value) =
          some "") := by
  intro spaces l1 l2 a hl2
  constructor
  · intro h1
    rw [trackNamespaces_append, trackNamespaces_cons, if_pos h1,
      trackNamespaces_noDecl l2 _ _ hl2, mapGet_mapSet_self]
  · intro h1 h2
    rw [trackNamespaces_append, trackNamespaces_cons, if_neg h1, if_pos h2,
      trackNamespaces_noDecl l2 _ _ hl2, mapGet_mapSet_self]

/-- Witness for C10: a mixed-case prefixed declaration with padded value is
stored trimmed and lower-cased, and a default declaration maps to the empty
prefix. -/
theorem c10_witness :
    (mapGet (trackNamespaces [] ([] ++ (⟨⟨"xmlns", "A"⟩, " z "⟩ : XmlAttr) :: []))
        (goTrim " z ") = some (goTrim (goToLower "A")) ∧
      goTrim (goToLower "A") = "a" ∧ goTrim " z " = "z") ∧
      mapGet (trackNamespaces [] ([] ++ (⟨⟨"", "xmlns"⟩, "u"⟩ : XmlAttr) :: []))
        (goTrim "u") = some "" := by
  refine ⟨⟨?_, by decide, by decide⟩, ?_⟩
  · exact (c10_namespace_recording [] [] [] ⟨⟨"xmlns", "A"⟩, " z "⟩ (by simp)).1 rfl
  · exact (c10_namespace_recording [] [] [] ⟨⟨"", "xmlns"⟩, "u"⟩ (by simp)).2
      (by decide) rfl

/-- C5: every advancing operation is a composition of cursor steps, and
along any such composition on well-formed end-of-input-terminated input the
depth never becomes negative; one delivered start tag raises the depth by
exactly one and one delivered end tag lowers it by exactly one while every
other token leaves it unchanged; consuming the well-formed content of an
open element followed by its matching end tag brings the depth back from
d+1 to d; and in the sibling document both d2 elements are observed at
depth 2 with the text extraction between them leaking nothing. -/
theorem c5_depth_invariant :
    (∀ p : XMLPullParser,
      Reaches p (NextToken p).2.2 ∧ Reaches p (Next p).2.2 ∧
      Reaches p (NextTag p).2.2 ∧ Reaches p (NextText p).2.2 ∧
      (∀ (r : Option String) (q : XMLPullParser), Skip p = some (r, q) →
        Reaches p q)) ∧
    (∀ (ts : List XmlToken) (p : XMLPullParser), Items ts →
      Reaches (NewXMLPullParser ts .eof) p → 0 ≤ p.depth) ∧
    (∀ (p : XMLPullParser) (t : XmlToken), Streaming p → p.terminal = .eof →
      p.peekToken = some t →
      ((NextToken p).1 = .StartTag → (NextToken p).2.2.depth = p.depth + 1) ∧
      ((NextToken p).1 = .EndTag → (NextToken p).2.2.depth = p.depth - 1) ∧
      ((NextToken p).1 ≠ .StartTag → (NextToken p).1 ≠ .EndTag →
        (NextToken p).2.2.depth = p.depth)) ∧
    (∀ (p : XMLPullParser) (inner : List XmlToken) (n : XmlName)
        (rest : List XmlToken),
      Streaming p → p.terminal = .eof → Items inner →
      pendingAll p = inner ++ .endElement n :: rest →
      (ntN (inner.length + 1) p).depth = p.depth - 1) ∧
    (sib1.name = "root" ∧ sib1.depth = 1 ∧ sib2.name = "d2" ∧ sib2.depth = 2 ∧
      sib4.name = "d2" ∧ sib4.depth = 2) := by
  refine ⟨?_, ?_, ?_, ?_, by decide⟩
  · intro p
    exact ⟨reaches_nextToken p, reaches_next p, reaches_nextTag p,
      reaches_nextText p, fun r q h => reaches_skip p r q h⟩
  · intro ts p hts hr
    exact inv_depth_nonneg ts p hts (reaches_inv ts p hr)
  · intro p t hs ht hp
    obtain ⟨heq, _, _, hdep, _, _⟩ := nextToken_step p t hs ht hp
    rw [heq]
    simp only
    refine ⟨?_, ?_, ?_⟩
    · intro hst
      have hb : tokenBal t = 1 := by
        cases t <;> simp_all [eventType, tokenBal]
      rw [hdep, hb]
    · intro het
      have hb : tokenBal t = -1 := by
        cases t <;> simp_all [eventType, tokenBal]
      rw [hdep, hb]
      omega
    · intro hn1 hn2
      have hb : tokenBal t = 0 := by
        cases t <;> simp_all [eventType, tokenBal]
      rw [hdep, hb]
      omega
  · intro p inner n rest hs ht hi hp
    have hp' : pendingAll p = (inner ++ [XmlToken.endElement n]) ++ rest := by
      rw [hp, List.append_assoc]
      rfl
    have hlen : (inner ++ [XmlToken.endElement n]).length = inner.length + 1 := by
      simp
    obtain ⟨hd, _, _, _⟩ :=
      consumeN (inner ++ [XmlToken.endElement n]) p rest hs ht hp'
    rw [hlen] at hd
    rw [hd, balance_append, items_balance hi]
    simp only [balance, tokenBal, List.map_cons, List.map_nil, List.sum_cons,
      List.sum_nil]
    omega

/-- Witness for C5, applying it at the empty well-formed source and at a
concrete mid-stream state about to deliver an end tag. -/
theorem c5_witness :
    0 ≤ (NewXMLPullParser [] SourceEnd.eof).depth ∧
      (NextToken wpEnd).2.2.depth = wpEnd.depth - 1 := by
  constructor
  · exact c5_depth_invariant.2.1 [] (NewXMLPullParser [] .eof) Items.nil
      Relation.ReflTransGen.refl
  · exact ((c5_depth_invariant.2.2.1 wpEnd (.endElement ⟨"", "r"⟩)
      ⟨Or.inl ⟨.endElement ⟨"", "r"⟩, by decide, by decide⟩, by decide,
        by decide, by decide⟩
      (by decide) (by decide)).2.1) (by decide)

/-- C6: NextText returns a contract error, consuming nothing, when the
cursor is not on a StartTag; returns the empty string when the next Next
result is EndTag; returns the captured text when the next result is Text
and the event after it is exactly EndTag; returns the mixed-content error
when the event following the Text is anything else; and on the concrete
example documents yields the simple text, the empty string, the
mixed-content error, and the exact whitespace payload unchanged. -/
theorem c6_nextText :
    (∀ p : XMLPullParser, p.event ≠ .StartTag →
      NextText p = ("", some "Parser must be on StartTag to get NextText()", p)) ∧
    (∀ (p p1 : XMLPullParser), p.event = .StartTag → Next p = (.EndTag, none, p1) →
      NextText p = ("", none, p1)) ∧
    (∀ (p p1 p2 : XMLPullParser), p.event = .StartTag →
      Next p = (.Text, none, p1) → Next p1 = (.EndTag, none, p2) →
      NextText p = (p1.text, none, p2)) ∧
    (∀ (p p1 p2 : XMLPullParser) (e : XMLEventType), p.event = .StartTag →
      Next p = (.Text, none, p1) → Next p1 = (e, none, p2) → e ≠ .EndTag →
      NextText p =
        ("", some "Event Text must be immediately followed by EndTag", p2)) ∧
    ((NextText ntxSimple).1 = "simple text" ∧ (NextText ntxSimple).2.1 = none) ∧
    ((NextText ntxEmpty).1 = "" ∧ (NextText ntxEmpty).2.1 = none) ∧
    ((NextText ntxMixed).2.1 =
      some "Event Text must be immediately followed by EndTag") ∧
    ((NextText ntxWs).1 = "  \t\n  " ∧ (NextText ntxWs).2.1 = none) := by
  refine ⟨?_, ?_, ?_, ?_, by decide, by decide, by decide, by decide⟩
  · intro p h
    simp only [NextText, if_pos h]
  · intro p p1 h hn
    simp only [NextText, h, if_neg, hn]
    simp
  · intro p p1 p2 h hn hn2
    have h' : ¬p.event ≠ .StartTag := by simp [h]
    simp only [NextText, if_neg h', hn]
    simp only [if_pos rfl, hn2]
    simp
  · intro p p1 p2 e h hn hn2 he
    have h' : ¬p.event ≠ .StartTag := by simp [h]
    simp only [NextText, if_neg h', hn]
    simp only [if_pos rfl, hn2]
    simp [he]

/-- Witness for C6, applying its general clauses at concrete states. -/
theorem c6_witness :
    NextText ntxEmpty = ("", none, (Next ntxEmpty).2.2) ∧
      NextText
        { ntxEmpty with event := XMLEventType.Text } =
        ("", some "Parser must be on StartTag to get NextText()",
          { ntxEmpty with event := XMLEventType.Text }) := by
  constructor
  · exact c6_nextText.2.1 ntxEmpty (Next ntxEmpty).2.2 (by decide)
      (by
        have h1 : (Next ntxEmpty).1 = .EndTag := by decide
        have h2 : (Next ntxEmpty).2.1 = none := by decide
        rw [← h1, ← h2])
  · exact c6_nextText.1 { ntxEmpty with event := XMLEventType.Text } (by decide)

/-- C7: Skip, called with the cursor on a start tag whose pending content
is a well-formed forest followed by the matching end tag, consumes that
entire subtree regardless of internal nesting or attributes and returns
successfully with the cursor positioned exactly on the matching end tag,
the depth back to one less and exactly the tokens after the subtree left
pending; a cached lexical error is propagated unchanged; and on the
concrete example document Skip on the skip element followed by NextTag
lands on keep. -/
theorem c7_skip :
    (∀ (inner : List XmlToken) (p : XMLPullParser) (n : XmlName)
        (rest : List XmlToken),
      Items inner → Streaming p → p.terminal = .eof → p.event = .StartTag →
      pendingAll p = inner ++ .endElement n :: rest →
      ∃ p', Skip p = some (none, p') ∧ p'.event = .EndTag ∧
        p'.name = n.localName ∧ p'.depth = p.depth - 1 ∧ pendingAll p' = rest) ∧
    (∀ (p : XMLPullParser) (e : String), p.peekErr = some e →
      Skip p = some (some e, resetTokenState p)) ∧
    (Skip skipStart = some (none, skipDone) ∧ skipDone.event = .EndTag ∧
      skipDone.name = "skip" ∧ skipDone.depth = 0 ∧
      (NextTag skipDone).1 = .StartTag ∧ (NextTag skipDone).2.2.name = "keep" ∧
      (NextTag skipDone).2.2.depth = 1) := by
  refine ⟨?_, ?_, by decide⟩
  · intro inner p n rest hi hs ht _ hp
    have hlen : (pendingAll p).length = p.remaining.length + 1 :=
      streaming_pending_length p hs.1 (by rw [hp]; intro hc; simp at hc)
    have hfuel : inner.length + 2 ≤ p.remaining.length + 2 := by
      rw [hp] at hlen
      simp [List.length_append] at hlen
      omega
    obtain ⟨p', h1, h2, h3, h4, h5, _, _⟩ :=
      skipFuel_items inner hi p n rest (p.remaining.length + 2) hs ht hp hfuel
    exact ⟨p', h1, h2, h3, h4, h5⟩
  · intro p e he
    show skipFuel (p.remaining.length + 2) p = some (some e, resetTokenState p)
    have : p.remaining.length + 2 = (p.remaining.length + 1) + 1 := rfl
    rw [this]
    simp only [skipFuel]
    rw [nextToken_err p e he]

/-- Witness for C7, applying it to a one-element subtree and to a state
holding a cached error. -/
theorem c7_witness :
    (∃ p', Skip wpEnd = some (none, p') ∧ p'.event = .EndTag ∧
      p'.name = "r" ∧ p'.depth = wpEnd.depth - 1 ∧ pendingAll p' = []) ∧
      Skip wpErr = some (some "boom", resetTokenState wpErr) := by
  constructor
  · exact c7_skip.1 [] wpEnd ⟨"", "r"⟩ [] Items.nil
      ⟨Or.inl ⟨.endElement ⟨"", "r"⟩, rfl, rfl⟩, rfl, by decide, by decide⟩
      rfl rfl rfl
  · exact c7_skip.2.1 wpErr "boom" rfl

/-- C3: the modelled base URI tracker pushes exactly one entry on every
processed start tag — the xml:base attribute resolved against the current
top when present, an unchanged copy of the top when absent — and pops
exactly one entry on every processed end tag; ResolveUrl resolves against
the top without mutating the stack; and on the example document the top is
the claimed URI at the root and at each d2, with ResolveUrl "test" at the
first d2 yielding the claimed resolution. -/
theorem c3_base_tracking :
    (∀ (st : List XmlUrl) (n : XmlName) (attrs : List XmlAttr),
      baseStep st (.startElement n attrs) =
        (match findXmlBase attrs with
         | some v => resolveRef (st.headD ⟨"", "", ""⟩) v
         | none => st.headD ⟨"", "", ""⟩) :: st) ∧
    (∀ (st : List XmlUrl) (n : XmlName) (attrs : List XmlAttr),
      (baseStep st (.startElement n attrs)).length = st.length + 1) ∧
    (∀ (st : List XmlUrl) (n : XmlName), st ≠ [] →
      (baseStep st (.endElement n)).length + 1 = st.length) ∧
    (∀ (st : List XmlUrl) (r : String), (ResolveUrl st r).2 = st) ∧
    (urlToString ((baseStackAfter (tsBase.take 1)).headD ⟨"", "", ""⟩) =
        "https://example.org/path/" ∧
      urlToString ((baseStackAfter (tsBase.take 2)).headD ⟨"", "", ""⟩) =
        "https://example.org/path/relative" ∧
      urlToString (ResolveUrl (baseStackAfter (tsBase.take 2)) "test").1 =
        "https://example.org/path/relative/test" ∧
      (ResolveUrl (baseStackAfter (tsBase.take 2)) "test").2 =
        baseStackAfter (tsBase.take 2) ∧
      urlToString ((baseStackAfter (tsBase.take 5)).headD ⟨"", "", ""⟩) =
        "https://example.org/absolute" ∧
      urlToString ((baseStackAfter (tsBase.take 8)).headD ⟨"", "", ""⟩) =
        "https://example.org/path/") := by
  refine ⟨?_, ?_, ?_, ?_, by decide⟩
  · intro st n attrs
    cases h : findXmlBase attrs <;> simp [baseStep, baseStart, h]
  · intro st n attrs
    simp only [baseStep, baseStart]
    cases h : findXmlBase attrs <;> simp
  · intro st n h
    cases st with
    | nil => exact absurd rfl h
    | cons u st' => simp [baseStep, baseEnd]
  · intro st r
    rfl

/-- Witness for C3's pop clause at a concrete nonempty stack. -/
theorem c3_witness :
    (baseStep [⟨"https", "example.org", "/"⟩] (.endElement ⟨"", "r"⟩)).length + 1 =
      ([⟨"https", "example.org", "/"⟩] : List XmlUrl).length := by
  exact c3_base_tracking.2.2.1 [⟨"https", "example.org", "/"⟩] ⟨"", "r"⟩ (by simp)

/-- Witness for C8 (amended) at a concrete whitespace-only state. -/
theorem c8_amended_witness :
    (NextToken
        { remaining := [], terminal := .eof, spaces := [], depth := 1,
          event := .StartTag, attrs := [], name := "r", space := "", text := "",
          token := none, peekToken := some (.charData "   "),
          peekEvent := .Text, peekErr := none }).1 = .Text ∧
      (NextToken
        { remaining := [], terminal := .eof, spaces := [], depth := 1,
          event := .StartTag, attrs := [], name := "r", space := "", text := "",
          token := none, peekToken := some (.charData "   "),
          peekEvent := .Text, peekErr := none }).2.1 = none := by
  exact c8_amended.2.2 _ "   "
    ⟨Or.inl ⟨.charData "   ", rfl, rfl⟩, rfl, by decide, by decide⟩ rfl rfl

end Goxpp
